import Mathlib

/-!
Verification development for the Anchor backwards scheduler
(src-tauri/src/scheduler.rs).

The scheduler's core routine `calculate_backwards_schedule` is shallowly
embedded below.  Timestamps (`chrono::NaiveDateTime`) are modelled as whole
seconds since the civil epoch 1970-01-01T00:00:00 (all values the scheduler
manipulates are whole seconds: anchor strings parse to whole seconds, and
durations are whole minutes or days; chrono's sub-second field is always 0,
except for the `:60` leap-second input which chrono stores as second 59 with
a nanosecond overflow; we truncate to whole seconds, i.e. second 59).
Rust's `HashMap`s are modelled as functions `String → Option _` (the anchors
map, whose iteration order is observable in the error path, is modelled as
the association list in iteration order); `Vec` used as a LIFO stack is
modelled as a list whose head is the top of the stack.
-/

deriving instance DecidableEq for Except

namespace AnchorSched


/-- Timestamps: whole seconds since 1970-01-01T00:00:00 (proleptic Gregorian). -/
abbrev DT := Int

/-! ## Date codec

Models `parse_date_string` in scheduler.rs, i.e. chrono's
`NaiveDateTime::parse_from_str(s, "%Y-%m-%dT%H:%M:%S")` followed by
`NaiveDate::parse_from_str(s, "%Y-%m-%d").and_hms(23,59,59)`, and the
formatting `format("%Y-%m-%dT%H:%M:%S")` used on output.

chrono's numeric field parser trims leading whitespace, accepts 1 to
`width` digits for an unsigned field, and for the signed year field accepts
an optional explicit sign followed by arbitrarily many digits (with an
`i64` overflow check).  Resolution then validates the calendar values;
years outside chrono's `NaiveDate` range (-262143..=262142) are rejected.
-/

/-- Proleptic-Gregorian leap year (`%` on `Int` is Euclidean, which agrees
with the mathematical rule also for negative years). -/
def isLeapYear (y : Int) : Bool := y % 4 == 0 && (y % 100 != 0 || y % 400 == 0)

/-- Number of days of month `m` (1..12) in year `y`. -/
def daysInMonth (y m : Int) : Int :=
  if m = 2 then (if isLeapYear y then 29 else 28)
  else if m = 4 ∨ m = 6 ∨ m = 9 ∨ m = 11 then 30
  else 31

/-- Days from 1970-01-01 to civil date `(y, m, d)` (standard civil-from-days
algorithm; `/` on `Int` is floor division for positive divisors). -/
def daysFromCivil (y m d : Int) : Int :=
  let y2 := if m ≤ 2 then y - 1 else y
  let era := y2 / 400
  let yoe := y2 - era * 400
  let doy := (153 * (m + (if m > 2 then -3 else 9)) + 2) / 5 + d - 1
  let doe := yoe * 365 + yoe / 4 - yoe / 100 + doy
  era * 146097 + doe - 719468

/-- Civil date `(y, m, d)` of day number `z` (days since 1970-01-01). -/
def civilFromDays (z : Int) : Int × Int × Int :=
  let z' := z + 719468
  let era := z' / 146097
  let doe := z' - era * 146097
  let yoe := (doe - doe / 1460 + doe / 36524 - doe / 146096) / 365
  let y := yoe + era * 400
  let doy := doe - (365 * yoe + yoe / 4 - yoe / 100)
  let mp := (5 * doy + 2) / 153
  let d := doy - (153 * mp + 2) / 5 + 1
  let m := mp + (if mp < 10 then 3 else -9)
  (if m ≤ 2 then y + 1 else y, m, d)

/-- Seconds since epoch of `y-m-d h:mi:s`. -/
def secsOfDateTime (y m d h mi s : Int) : DT :=
  daysFromCivil y m d * 86400 + h * 3600 + mi * 60 + s

/-- chrono `MAX_YEAR`. -/
def MAX_YEAR : Int := 262142
/-- chrono `MIN_YEAR`. -/
def MIN_YEAR : Int := -262143

/-- `NaiveDateTime::MAX`, truncated up to the next whole second: chrono's
value is 262142-12-31T23:59:59.999999999, which is strictly greater than
every whole-second timestamp up to and including 262142-12-31T23:59:59. -/
def NAIVEDATETIME_MAX : DT := secsOfDateTime MAX_YEAR 12 31 23 59 59 + 1

/-- Greedily scan at most `max` leading ASCII digits (chrono `scan::number`
reads digits up to `max` and stops at the first non-digit). Returns the
value, the number of digits read and the rest. -/
def scanDigits : List Char → Nat → Nat × Nat × List Char
  | [], _ => (0, 0, [])
  | c :: cs, 0 => (0, 0, c :: cs)
  | c :: cs, Nat.succ max =>
    if c.isDigit then
      let (v, n, rest) := scanDigits cs max
      -- digits accumulate most-significant first; recompute the value
      (c.toNat - '0'.toNat) * 10 ^ n + v |> fun v' => (v', n + 1, rest)
    else (0, 0, c :: cs)

/-- chrono `scan::number(s, 1, max)`: at least one digit required. -/
def scanNumber (cs : List Char) (max : Nat) : Option (Nat × List Char) :=
  let (v, n, rest) := scanDigits cs max
  if n = 0 then none else some (v, rest)

/-- Skip leading whitespace (chrono trims whitespace before numeric fields). -/
def skipWs : List Char → List Char
  | c :: cs => if c.isWhitespace then skipWs cs else c :: cs
  | [] => []

/-- Parse an unsigned numeric field of width `w` (chrono accepts 1..w digits). -/
def parseUnsigned (w : Nat) (cs : List Char) : Option (Nat × List Char) :=
  scanNumber (skipWs cs) w

/-- Parse the `%Y` field: optional explicit sign with unbounded digits
(checked against `i64` overflow as in chrono's `scan::number`), otherwise
at most 4 digits. -/
def parseYearField (cs : List Char) : Option (Int × List Char) :=
  match skipWs cs with
  | '-' :: rest => do
    let (v, rest') ← scanNumber rest (2 ^ 64)
    if v ≤ 2 ^ 63 - 1 then some (-(v : Int), rest') else none
  | '+' :: rest => do
    let (v, rest') ← scanNumber rest (2 ^ 64)
    if v ≤ 2 ^ 63 - 1 then some ((v : Int), rest') else none
  | other => do
    let (v, rest') ← scanNumber other 4
    some ((v : Int), rest')

/-- Match a literal character. -/
def parseLit (c : Char) : List Char → Option (List Char)
  | c' :: rest => if c' = c then some rest else none
  | [] => none

/-- Validate parsed year/month/day as chrono's `NaiveDate::from_ymd_opt`. -/
def validYmd (y m d : Int) : Bool :=
  MIN_YEAR ≤ y && y ≤ MAX_YEAR && 1 ≤ m && m ≤ 12 && 1 ≤ d && d ≤ daysInMonth y m

/-- Parse per format string `"%Y-%m-%dT%H:%M:%S"`, full match (chrono
errors with `TOO_LONG` on a non-empty remainder).  The second field admits
60 (leap second), stored here truncated to whole seconds, i.e. as 59. -/
def parseDateTimeFormat (cs : List Char) : Option DT := do
  let (y, cs) ← parseYearField cs
  let cs ← parseLit '-' cs
  let (mo, cs) ← parseUnsigned 2 cs
  let cs ← parseLit '-' cs
  let (d, cs) ← parseUnsigned 2 cs
  let cs ← parseLit 'T' cs
  let (h, cs) ← parseUnsigned 2 cs
  let cs ← parseLit ':' cs
  let (mi, cs) ← parseUnsigned 2 cs
  let cs ← parseLit ':' cs
  let (s, cs) ← parseUnsigned 2 cs
  if cs = [] ∧ validYmd y mo d ∧ h ≤ 23 ∧ mi ≤ 59 ∧ s ≤ 60 then
    let s' : Int := if s = 60 then 59 else (s : Int)
    some (secsOfDateTime y mo d h mi s')
  else none

/-- Parse per format string `"%Y-%m-%d"`, full match; returns the day number. -/
def parseDateFormat (cs : List Char) : Option Int := do
  let (y, cs) ← parseYearField cs
  let cs ← parseLit '-' cs
  let (mo, cs) ← parseUnsigned 2 cs
  let cs ← parseLit '-' cs
  let (d, cs) ← parseUnsigned 2 cs
  if cs = [] ∧ validYmd y mo d then some (daysFromCivil y mo d) else none

/-- `parse_date_string` (scheduler.rs:80): try `%Y-%m-%dT%H:%M:%S`, then
`%Y-%m-%d` at 23:59:59, else the error message built by `format!`. -/
def parse_date_string (s : String) : Except String DT :=
  match parseDateTimeFormat s.data with
  | some dt => .ok dt
  | none =>
    match parseDateFormat s.data with
    | some days => .ok (days * 86400 + (23 * 3600 + 59 * 60 + 59))
    | none =>
      .error ("Could not parse date '" ++ s ++ "', expected %Y-%m-%dT%H:%M:%S or %Y-%m-%d")

/-- The ASCII digit character of `n ≤ 9`. -/
def digitChar (n : Nat) : Char := Char.ofNat ('0'.toNat + n)

/-- Zero-pad a value in 0..=99 to width 2 (how chrono renders the
two-digit numeric fields). -/
def pad2 (n : Int) : String :=
  ⟨[digitChar (n.toNat / 10), digitChar (n.toNat % 10)]⟩

/-- Zero-pad a value in 0..=9999 to width 4. -/
def pad4 (n : Int) : String :=
  ⟨[digitChar (n.toNat / 1000), digitChar (n.toNat / 100 % 10),
    digitChar (n.toNat / 10 % 10), digitChar (n.toNat % 10)]⟩

/-- chrono's `%Y` formatting: years 0..=9999 are zero-padded to 4 digits;
any other year is written as `write!("{:+05}", y)` ("non-four-digit years
require an explicit sign"): a sign, then the absolute value zero-padded to
4 digits (printed in full when wider). -/
def formatYear (y : Int) : String :=
  if 0 ≤ y ∧ y ≤ 9999 then pad4 y
  else if 0 ≤ y then
    (if y ≤ 9999 then "+" ++ pad4 y else "+" ++ toString y)
  else
    (if -y ≤ 9999 then "-" ++ pad4 (-y) else "-" ++ toString (-y))

/-- Format a timestamp per `"%Y-%m-%dT%H:%M:%S"` (scheduler.rs:306-307). -/
def formatDT (v : DT) : String :=
  let z := v / 86400
  let sod := v % 86400
  let c := civilFromDays z
  formatYear c.1 ++ "-" ++ pad2 c.2.1 ++ "-" ++ pad2 c.2.2 ++ "T" ++
    pad2 (sod / 3600) ++ ":" ++ pad2 (sod % 3600 / 60) ++ ":" ++ pad2 (sod % 60)

/-! ## Data model (scheduler.rs:11-58) -/

/-- `SubTask` (scheduler.rs:12-17). -/
structure SubTask where
  id : String
  name : String
  completed : Bool
deriving DecidableEq

/-- `Task` (scheduler.rs:20-36). `duration_days` and `duration_minutes`
are `i64` in the source; the scheduler only feeds them to `chrono::Duration`,
modelled as unbounded integers. -/
structure Task where
  id : String
  name : String
  duration_days : Int
  duration_minutes : Option Int
  dependencies : List String
  completed : Bool
  notes : Option String
  is_milestone : Bool
  subtasks : List SubTask
deriving DecidableEq

/-- `ScheduledTask` (scheduler.rs:39-50). -/
structure ScheduledTask where
  id : String
  name : String
  start_date : String
  end_date : String
  completed : Bool
  notes : Option String
  is_critical : Bool
  slack_minutes : Int
  is_milestone : Bool
deriving DecidableEq

/-- `ScheduleRequest` (scheduler.rs:53-58).  `anchors` is a `HashMap`; it is
modelled as its association list in iteration order (its keys are distinct,
which hypotheses below state as `Nodup` where relevant). -/
structure ScheduleRequest where
  tasks : List Task
  anchors : List (String × String)

/-- `ScheduleError` (scheduler.rs:61-78). -/
inductive ScheduleError where
  | InvalidAnchorDate (task_id : String) (details : String)
  | AnchorTaskNotFound (task_id : String)
  | TaskNotFound (task_id : String)
  | NoEndDateComputed (name : String)
  | CycleDetected
deriving DecidableEq

/-! ## Graph builder -/

/-- Pointwise update of a functional map (one `HashMap::insert`). -/
def upd {α : Type} (m : String → Option α) (k : String) (v : α) :
    String → Option α :=
  fun k' => if k' = k then some v else m k'

/-- `task_map` (scheduler.rs:101-105): collected in list order, later
inserts overwrite earlier ones, so the last task with a given id wins. -/
def taskMap (tasks : List Task) : String → Option Task :=
  tasks.foldl (fun m t => upd m t.id t) (fun _ => none)

/-- `dependents` (scheduler.rs:113-121): provider id to the list of consumer
task ids, built by scanning tasks in order and their dependencies in order;
a key is present in the `HashMap` iff the list is nonempty. -/
def dependentsMap (tasks : List Task) : String → List String :=
  tasks.foldl
    (fun m t => t.dependencies.foldl
      (fun m' dep => fun k => if k = dep then m' k ++ [t.id] else m' k) m)
    (fun _ => [])

/-- `Duration::minutes(m)` or `Duration::days(d)` in seconds
(scheduler.rs:170-174, 268-272). -/
def durationSecs (t : Task) : Int :=
  match t.duration_minutes with
  | some mins => mins * 60
  | none => t.duration_days * 86400

/-- A `usize` decrement `*count -= 1` as compiled in release mode: wraps at
zero (the backward pass never underflows, the forward pass can, see below). -/
def decWrap (n : Nat) : Nat := if n = 0 then 2 ^ 64 - 1 else n - 1

/-! ## Backward pass (scheduler.rs:123-217)

The LIFO queue (`Vec` with `push`/`pop` at the back) is modelled as a list
whose head is the top: the initial queue is the reversed filter of the task
list, and pushes cons onto the head. -/

/-- Seed `late_finish` from the anchors in iteration order
(scheduler.rs:124-136). -/
def seedAnchors (tm : String → Option Task) :
    List (String × String) → (String → Option DT) →
    Except ScheduleError (String → Option DT)
  | [], lf => .ok lf
  | (task_id, date_str) :: rest, lf =>
    if (tm task_id).isNone then .error (.AnchorTaskNotFound task_id)
    else
      match parse_date_string date_str with
      | .error e => .error (.InvalidAnchorDate task_id e)
      | .ok date => seedAnchors tm rest (upd lf task_id date)

/-- State of the backward pass. `sched` is `backward_schedule` as an
association list in insertion order (each id is inserted at most once,
guarded by `visited`). -/
structure BState where
  queue : List String
  visited : List String
  late_finish : String → Option DT
  counts : String → Option Nat
  sched : List (String × DT × DT)

/-- One iteration of the provider loop (scheduler.rs:181-197): tighten
`late_finish` via `entry().or_insert(MAX)` and the `ls < entry` test,
decrement the consumer count, and push the provider if its count reached
zero. -/
def propagateStep (ls : DT) (st : BState) (dep : String) : BState :=
  let cur := (st.late_finish dep).getD NAIVEDATETIME_MAX
  let lf' := upd st.late_finish dep (if ls < cur then ls else cur)
  match st.counts dep with
  | none => { st with late_finish := lf' }
  | some c =>
    let c' := decWrap c
    { st with
      late_finish := lf'
      counts := upd st.counts dep c'
      queue := if c' = 0 then dep :: st.queue else st.queue }

/-- Propagation to the providers of one processed task
(scheduler.rs:180-197). -/
def propagate (ls : DT) (deps : List String) (s : BState) : BState :=
  deps.foldl (propagateStep ls) s

/-- Outcome of the backward loop: ran to completion, or aborted because a
popped id had no task (`TaskNotFound`), or because a popped task had no
late finish (`NoEndDateComputed`). -/
inductive BackOutcome where
  | done (s : BState)
  | notFound (task_id : String) (s : BState)
  | noLf (t : Task) (s : BState)

/-- The backward `while let Some(task_id) = queue.pop()` loop
(scheduler.rs:155-198).  Structural recursion on fuel; `calculate` passes
fuel exceeding the total number of pops (each push coincides with a counter
reaching zero, which happens at most once per key per wrap period), so the
fuel-exhaustion branch returns with a nonempty queue only on inputs far
beyond any actual `Vec` capacity. -/
def backLoop (tm : String → Option Task) : Nat → BState → BackOutcome
  | 0, s => .done s
  | Nat.succ fuel, s =>
    match s.queue with
    | [] => .done s
    | task_id :: rest =>
      if s.visited.contains task_id then
        backLoop tm fuel { s with queue := rest }
      else
        match tm task_id with
        | none => .notFound task_id s
        | some t =>
          match s.late_finish task_id with
          | none => .noLf t s
          | some lf =>
            let dur := durationSecs t
            let ls := lf - dur
            let s' := { s with
              queue := rest
              visited := task_id :: s.visited
              sched := s.sched ++ [(task_id, ls, lf)] }
            backLoop tm fuel (propagate ls t.dependencies s')

/-- Initial backward state (scheduler.rs:138-152): counts from `dependents`,
queue = tasks that appear in no dependency list (reversed: LIFO pops the
last pushed first). -/
def initBState (tasks : List Task) (lf0 : String → Option DT) : BState :=
  let dm := dependentsMap tasks
  { queue := ((tasks.filter (fun t => (dm t.id).isEmpty)).map (fun t => t.id)).reverse
    visited := []
    late_finish := lf0
    counts := fun id => match dm id with | [] => none | l => some l.length
    sched := [] }

/-- Fuel bound for both loops: total pops never exceed the initial queue
length plus one push per counter key per wrap period. -/
def fuelBound (tasks : List Task) : Nat :=
  2 * (tasks.length + (tasks.map (fun t => t.dependencies.length)).sum) + 1

/-- Rust's `{:?}` rendering of a `Vec<String>` (used in the
`NoEndDateComputed` aggregate message). -/
def rustDebugStr (s : String) : String :=
  "\"" ++ s ++ "\""

/-- `{:?}` of a `Vec<String>`: `["a", "b"]`. -/
def rustDebugList (l : List String) : String :=
  "[" ++ String.intercalate ", " (l.map rustDebugStr) ++ "]"

/-- The aggregate `NoEndDateComputed` message (scheduler.rs:212-215). -/
def missingMsg (names : List String) : String :=
  "Tasks not processing from anchors (disconnected?): " ++ rustDebugList names

/-- Names of request tasks with no entry in the backward schedule
(scheduler.rs:203-209). -/
def missingNames (tasks : List Task) (sched : List (String × DT × DT)) :
    List String :=
  (tasks.filter (fun t => !(sched.any (fun e => e.1 == t.id)))).map (fun t => t.name)

/-! ## Forward pass (scheduler.rs:219-289) -/

/-- State of the forward pass (the `visited_forward` set is written but
never read in the source and is omitted). -/
structure FState where
  queue : List String
  early_start : String → Option DT
  early_finish : String → Option DT
  in_degree : String → Option Nat

/-- Early start of one task (scheduler.rs:252-266): project start for
sources, otherwise the max of the known early finishes of the dependencies,
defaulting to project start. -/
def earlyStartOfTask (ef : String → Option DT) (ps : DT) (t : Task) : DT :=
  if t.dependencies.isEmpty then ps
  else t.dependencies.foldl
    (fun maxEf dep =>
      match ef dep with
      | some v => if maxEf < v then v else maxEf
      | none => maxEf) ps

/-- Decrement the in-degrees of the consumers of one processed task and
push those reaching zero (scheduler.rs:278-288). -/
def forwardPropagate (consumers : List String) (s : FState) : FState :=
  consumers.foldl
    (fun st c =>
      match st.in_degree c with
      | none => st
      | some d =>
        let d' := decWrap d
        { st with
          in_degree := upd st.in_degree c d'
          queue := if d' = 0 then c :: st.queue else st.queue })
    s

/-- The forward `while let Some(task_id) = forward_queue.pop()` loop
(scheduler.rs:248-289).  The source `unwrap`s the task lookup; every id on
this queue is a task id, so the `none` branch (which skips) is unreachable. -/
def forwardLoop (tm : String → Option Task) (dm : String → List String)
    (ps : DT) : Nat → FState → FState
  | 0, s => s
  | Nat.succ fuel, s =>
    match s.queue with
    | [] => s
    | task_id :: rest =>
      match tm task_id with
      | none => forwardLoop tm dm ps fuel { s with queue := rest }
      | some t =>
        let es := earlyStartOfTask s.early_finish ps t
        let ef := es + durationSecs t
        let s' := { s with
          queue := rest
          early_start := upd s.early_start task_id es
          early_finish := upd s.early_finish task_id ef }
        forwardLoop tm dm ps fuel (forwardPropagate (dm task_id) s')

/-- Initial forward state (scheduler.rs:232-244): in-degrees collected from
the task list (later tasks overwrite earlier ones with the same id), queue =
tasks with no dependencies (reversed, LIFO). -/
def initFState (tasks : List Task) : FState :=
  { queue := ((tasks.filter (fun t => t.dependencies.isEmpty)).map (fun t => t.id)).reverse
    early_start := fun _ => none
    early_finish := fun _ => none
    in_degree := tasks.foldl (fun m t => upd m t.id t.dependencies.length) (fun _ => none) }

/-! ## Assembly and the entry point (scheduler.rs:97-318) -/

/-- `backward_schedule.get(id)` on the association-list model. -/
def schedLookup (sched : List (String × DT × DT)) (id : String) :
    Option (DT × DT) :=
  (sched.find? (fun e => e.1 == id)).map (fun e => e.2)

/-- Seeding plus the backward loop. -/
def backOutcome (req : ScheduleRequest) : Except ScheduleError BackOutcome :=
  let tm := taskMap req.tasks
  match seedAnchors tm req.anchors (fun _ => none) with
  | .error e => .error e
  | .ok lf0 => .ok (backLoop tm (fuelBound req.tasks) (initBState req.tasks lf0))

/-- The backward phase as the source maps it to errors: an aborted pop
becomes `TaskNotFound` (scheduler.rs:160-162) or `NoEndDateComputed` of the
popped task's name (scheduler.rs:165-167). -/
def backResult (req : ScheduleRequest) : Except ScheduleError BState :=
  match backOutcome req with
  | .error e => .error e
  | .ok (.done s) => .ok s
  | .ok (.notFound task_id _) => .error (.TaskNotFound task_id)
  | .ok (.noLf t _) => .error (.NoEndDateComputed t.name)

/-- `project_start` (scheduler.rs:221-226): minimum late start over the
backward results (iteration over a map; `min` is order-independent). -/
def projectStart (sched : List (String × DT × DT)) : Option DT :=
  (sched.map (fun e => e.2.1)).min?

/-- Run the forward pass for a request at a given project start. -/
def runForward (tasks : List Task) (ps : DT) : FState :=
  forwardLoop (taskMap tasks) (dependentsMap tasks) ps (fuelBound tasks)
    (initFState tasks)

/-- Result assembly (scheduler.rs:293-315): input order, skipping tasks
without a backward entry, early start falling back to the late start,
slack in whole minutes (`num_minutes` truncates toward zero, `Int.tdiv`),
critical iff slack is nonpositive. -/
def assemble (tasks : List Task) (sched : List (String × DT × DT))
    (fs : FState) : List ScheduledTask :=
  tasks.filterMap (fun t =>
    (schedLookup sched t.id).map (fun p =>
      let ls := p.1
      let lf := p.2
      let es := (fs.early_start t.id).getD ls
      let slack := Int.tdiv (ls - es) 60
      { id := t.id
        name := t.name
        start_date := formatDT ls
        end_date := formatDT lf
        completed := t.completed
        notes := t.notes
        is_critical := decide (slack ≤ 0)
        slack_minutes := slack
        is_milestone := t.is_milestone }))

/-- `calculate_backwards_schedule` (scheduler.rs:97-318). -/
def calculate_backwards_schedule (req : ScheduleRequest) :
    Except ScheduleError (List ScheduledTask) :=
  if req.tasks = [] then .ok []
  else
    match backResult req with
    | .error e => .error e
    | .ok fin =>
      if fin.sched.length ≠ req.tasks.length ∧
          missingNames req.tasks fin.sched ≠ [] then
        .error (.NoEndDateComputed (missingMsg (missingNames req.tasks fin.sched)))
      else
        match projectStart fin.sched with
        | none => .error .CycleDetected
        | some ps => .ok (assemble req.tasks fin.sched (runForward req.tasks ps))

/-- A task literal with the serde defaults (spec section 6.1). -/
def mkTask (id name : String) (duration_days : Int)
    (duration_minutes : Option Int) (dependencies : List String) : Task :=
  { id := id, name := name, duration_days := duration_days
    duration_minutes := duration_minutes, dependencies := dependencies
    completed := false, notes := none, is_milestone := false, subtasks := [] }

/-! ## Observation helpers used to state the claims -/

/-- The backward schedule of a request when the backward pass ran to
completion (also defined, as the partial schedule, when it completed with
unprocessed tasks). -/
def schedOf (req : ScheduleRequest) : Option (List (String × DT × DT)) :=
  match backOutcome req with
  | .ok (.done s) => some s.sched
  | _ => none

/-- The task at which the backward loop aborted for lack of a late finish,
if it so aborted. -/
def noLfTask (req : ScheduleRequest) : Option Task :=
  match backOutcome req with
  | .ok (.noLf t _) => some t
  | _ => none

/-- The partial backward schedule at a `noLf` abort. -/
def noLfSched (req : ScheduleRequest) : Option (List (String × DT × DT)) :=
  match backOutcome req with
  | .ok (.noLf _ s) => some s.sched
  | _ => none

/-- The final forward-pass state of a successful run. -/
def forwardOf (req : ScheduleRequest) : Option FState :=
  match backOutcome req with
  | .ok (.done s) =>
    match projectStart s.sched with
    | some ps => some (runForward req.tasks ps)
    | none => none
  | _ => none

/-- Early start of a task in a successful run. -/
def earlyStartOf (req : ScheduleRequest) (id : String) : Option DT :=
  (forwardOf req).bind (fun fs => fs.early_start id)

/-- Early finish of a task in a successful run. -/
def earlyFinishOf (req : ScheduleRequest) (id : String) : Option DT :=
  (forwardOf req).bind (fun fs => fs.early_finish id)

/-! ## Spec-side date shapes (spec sections 4.1 and 3)

These two definitions transcribe the spec's words: a string matches
`YYYY-MM-DDThh:mm:ss` or `YYYY-MM-DD` with the fixed widths shown, each
letter one ASCII digit.  They are deliberately written from the spec, to be
compared with the chrono-derived parser above. -/

/-- The field values of a string of the exact shape `YYYY-MM-DDThh:mm:ss`
(fixed-width, each letter one ASCII digit), if it has that shape. -/
def specShapeDateTime (s : String) :
    Option (Int × Int × Int × Int × Int × Int) :=
  match s.data with
  | [y1, y2, y3, y4, c1, m1, m2, c2, d1, d2, c3,
     h1, h2, c4, n1, n2, c5, s1, s2] =>
    if c1 = '-' ∧ c2 = '-' ∧ c3 = 'T' ∧ c4 = ':' ∧ c5 = ':' ∧
        y1.isDigit ∧ y2.isDigit ∧ y3.isDigit ∧ y4.isDigit ∧
        m1.isDigit ∧ m2.isDigit ∧ d1.isDigit ∧ d2.isDigit ∧
        h1.isDigit ∧ h2.isDigit ∧ n1.isDigit ∧ n2.isDigit ∧
        s1.isDigit ∧ s2.isDigit then
      some (((y1.toNat - '0'.toNat) * 1000 + (y2.toNat - '0'.toNat) * 100 +
              (y3.toNat - '0'.toNat) * 10 + (y4.toNat - '0'.toNat) : Nat),
            ((m1.toNat - '0'.toNat) * 10 + (m2.toNat - '0'.toNat) : Nat),
            ((d1.toNat - '0'.toNat) * 10 + (d2.toNat - '0'.toNat) : Nat),
            ((h1.toNat - '0'.toNat) * 10 + (h2.toNat - '0'.toNat) : Nat),
            ((n1.toNat - '0'.toNat) * 10 + (n2.toNat - '0'.toNat) : Nat),
            ((s1.toNat - '0'.toNat) * 10 + (s2.toNat - '0'.toNat) : Nat))
    else none
  | _ => none

/-- The field values of a string of the exact shape `YYYY-MM-DD`. -/
def specShapeDate (s : String) : Option (Int × Int × Int) :=
  match s.data with
  | [y1, y2, y3, y4, c1, m1, m2, c2, d1, d2] =>
    if c1 = '-' ∧ c2 = '-' ∧
        y1.isDigit ∧ y2.isDigit ∧ y3.isDigit ∧ y4.isDigit ∧
        m1.isDigit ∧ m2.isDigit ∧ d1.isDigit ∧ d2.isDigit then
      some (((y1.toNat - '0'.toNat) * 1000 + (y2.toNat - '0'.toNat) * 100 +
              (y3.toNat - '0'.toNat) * 10 + (y4.toNat - '0'.toNat) : Nat),
            ((m1.toNat - '0'.toNat) * 10 + (m2.toNat - '0'.toNat) : Nat),
            ((d1.toNat - '0'.toNat) * 10 + (d2.toNat - '0'.toNat) : Nat))
    else none
  | _ => none

/-! ## Derived definitions used by the invariants and counterexamples -/

/-- The timestamp of an anchor pair whose date string parses. -/
def anchorDT (p : String × String) : DT :=
  match parse_date_string p.2 with
  | .ok v => v
  | .error _ => 0

/-- The seeding fold on valid anchor pairs, as a pure fold of updates. -/
def seedFold (m : String → Option DT) (l : List (String × String)) :
    String → Option DT :=
  l.foldl (fun acc p => upd acc p.1 (anchorDT p)) m

/-- Sum of the dependency-occurrence counts of `dep` over a list of ids,
through `task_map`. -/
def visitedDecr (tm : String → Option Task) (visited : List String)
    (dep : String) : Nat :=
  (visited.map (fun v => match tm v with
    | some t => t.dependencies.count dep
    | none => 0)).sum

/-- Invariant bundle of the backward loop, relative to the request's task
list and the anchor-seeded map `lf0`. -/
structure BInv (tasks : List Task) (lf0 : String → Option DT) (s : BState) :
    Prop where
  visited_eq : s.visited = (s.sched.map (fun e => e.1)).reverse
  visited_nodup : s.visited.Nodup
  sched_tm : ∀ e ∈ s.sched, ∃ t, taskMap tasks e.1 = some t ∧
    e.2.2 - e.2.1 = durationSecs t
  counts_none : ∀ id, dependentsMap tasks id = [] → s.counts id = none
  counts_some : ∀ id, dependentsMap tasks id ≠ [] → ∃ c, s.counts id = some c ∧
    (dependentsMap tasks id).length ≤ c + visitedDecr (taskMap tasks) s.visited id
  lf_seed_some : ∀ id, (lf0 id).isSome = true → ((s.late_finish id).isSome) = true
  lf_le_seed : ∀ id v w, s.late_finish id = some v → lf0 id = some w → v ≤ w
  lf_sink : ∀ id, dependentsMap tasks id = [] → s.late_finish id = lf0 id
  dep_entry : ∀ e ∈ s.sched, ∀ t, taskMap tasks e.1 = some t →
    ∀ dep ∈ t.dependencies, ((s.late_finish dep).isSome) = true
  tighten : ∀ e ∈ s.sched, ∀ t, taskMap tasks e.1 = some t →
    ∀ dep ∈ t.dependencies, ∀ w, s.late_finish dep = some w → w ≤ e.2.1
  sched_seed : ∀ e ∈ s.sched, ∀ w, lf0 e.1 = some w → e.2.2 ≤ w
  sched_sink : ∀ e ∈ s.sched, dependentsMap tasks e.1 = [] → lf0 e.1 = some e.2.2
  queue_cond : ∀ id, (id ∈ s.queue ∨ id ∈ s.visited) →
    dependentsMap tasks id = [] ∨
    (∀ cid t, taskMap tasks cid = some t → id ∈ t.dependencies →
      cid ∈ s.visited)
  sched_order : ∀ pre e post, s.sched = pre ++ e :: post →
    ∀ t, taskMap tasks e.1 = some t → ∀ dep ∈ t.dependencies,
    ∀ e2 ∈ pre ++ [e], e2.1 ≠ dep
  sched_prec : ∀ ed ∈ s.sched, ∀ ec ∈ s.sched, ∀ t,
    taskMap tasks ec.1 = some t → ed.1 ∈ t.dependencies → ed.2.2 ≤ ec.2.1

/-- Safety invariant of the forward pass: every computed early start is
bounded by the task's backward late start, and every computed early finish
is the early start plus the task's duration. -/
structure FLite (tasks : List Task) (sched : List (String × DT × DT))
    (fs : FState) : Prop where
  es_dom : ∀ x es, fs.early_start x = some es →
    ∃ p, schedLookup sched x = some p ∧ es ≤ p.1
  ef_pair : ∀ x ef, fs.early_finish x = some ef →
    ∃ t es, taskMap tasks x = some t ∧ fs.early_start x = some es ∧
      ef = es + durationSecs t

/-- The single output row of the witness request. -/
def c4row : ScheduledTask :=
  { id := "a", name := "Task A", start_date := "2026-01-09T23:59:59"
    end_date := "2026-01-10T23:59:59", completed := false, notes := none
    is_critical := true, slack_minutes := 0, is_milestone := false }

/-- One iteration of the forward consumer loop (scheduler.rs:278-288). -/
def fstep (st : FState) (c : String) : FState :=
  match st.in_degree c with
  | none => st
  | some d =>
    let d' := decWrap d
    { st with
      in_degree := upd st.in_degree c d'
      queue := if d' = 0 then c :: st.queue else st.queue }

/-- Safety invariant of the forward pass under distinct task ids, over the
ghost list `P` of processed ids (in processing order, newest first). -/
structure FInv (tasks : List Task) (P : List String) (fs : FState) :
    Prop where
  start_iff : ∀ x, ((fs.early_start x).isSome = true) ↔ x ∈ P
  finish_iff : ∀ x, ((fs.early_finish x).isSome = true) ↔ x ∈ P
  qp_nodup : (fs.queue ++ P).Nodup
  deg : ∀ x t, taskMap tasks x = some t → ∃ dg, fs.in_degree x = some dg ∧
    dg + (t.dependencies.filter (fun d => P.contains d)).length =
      t.dependencies.length
  ready : ∀ x t, taskMap tasks x = some t → (x ∈ fs.queue ∨ x ∈ P) →
    ∀ dep ∈ t.dependencies, dep ∈ P
  prec : ∀ x t, taskMap tasks x = some t → ∀ esx, fs.early_start x = some esx →
    ∀ dep ∈ t.dependencies, ∀ efd, fs.early_finish dep = some efd → efd ≤ esx

/-- The final backward state of a request (the error branch is never used at
call sites, which require `backResult req = .ok (finOf req)`). -/
def finOf (req : ScheduleRequest) : BState :=
  match backResult req with
  | .ok s => s
  | .error _ => initBState [] (fun _ => none)

/-- The duplicate-id request breaking forward precedence. -/
def c2req : ScheduleRequest :=
  { tasks := [mkTask "w" "W" 10 none [], mkTask "x" "X1" 1 none [],
              mkTask "x" "X2" 1 none ["w"], mkTask "a" "A1" 1 none [],
              mkTask "a" "A2" 1 none ["x"], mkTask "b" "B" 1 none ["a"]]
    anchors := [("b", "2026-01-30T00:00:00")] }

/-- The duplicate-id request breaking duration closure. -/
def c3req : ScheduleRequest :=
  { tasks := [mkTask "a" "A1" 5 none [], mkTask "a" "A2" 1 none []]
    anchors := [("a", "2026-01-10T00:00:00")] }

/-! ## Basic lemmas on the graph builders -/

theorem upd_eq {α : Type} (m : String → Option α) (k : String) (v : α) :
    upd m k v k = some v := by
  simp [upd]

theorem upd_ne {α : Type} (m : String → Option α) {k k' : String} (v : α)
    (h : k' ≠ k) : upd m k v k' = m k' := by
  simp [upd, h]

theorem taskMap_go_mem :
    ∀ (l : List Task) (m : String → Option Task) (id : String) (t : Task),
      l.foldl (fun m t => upd m t.id t) m id = some t →
      (t ∈ l ∧ t.id = id) ∨ m id = some t := by
  intro l
  induction l with
  | nil => intro m id t h; exact Or.inr h
  | cons hd tl ih =>
    intro m id t h
    rcases ih _ _ _ h with h' | h'
    · exact Or.inl ⟨List.mem_cons_of_mem _ h'.1, h'.2⟩
    · dsimp only at h'
      by_cases hid : id = hd.id
      · subst hid
        rw [upd_eq] at h'
        cases h'
        exact Or.inl ⟨List.mem_cons_self _ _, rfl⟩
      · rw [upd_ne _ _ hid] at h'
        exact Or.inr h'

theorem taskMap_mem {tasks : List Task} {id : String} {t : Task}
    (h : taskMap tasks id = some t) : t ∈ tasks ∧ t.id = id := by
  rcases taskMap_go_mem tasks _ id t h with h' | h'
  · exact h'
  · simp at h'

theorem taskMap_go_isSome :
    ∀ (l : List Task) (m : String → Option Task) (id : String),
      (m id).isSome ∨ id ∈ l.map Task.id →
      (l.foldl (fun m t => upd m t.id t) m id).isSome := by
  intro l
  induction l with
  | nil => intro m id h; simpa using h
  | cons hd tl ih =>
    intro m id h
    apply ih
    dsimp only
    by_cases hid : id = hd.id
    · subst hid; rw [upd_eq]; exact Or.inl rfl
    · rw [upd_ne _ _ hid]
      rcases h with h | h
      · exact Or.inl h
      · simp only [List.map_cons, List.mem_cons] at h
        rcases h with h | h
        · exact absurd h hid
        · exact Or.inr h

theorem taskMap_isSome {tasks : List Task} {t : Task} (h : t ∈ tasks) :
    (taskMap tasks t.id).isSome := by
  apply taskMap_go_isSome
  exact Or.inr (List.mem_map_of_mem _ h)

/-- With pairwise distinct ids, `task_map` recovers each task exactly. -/
theorem taskMap_nodup {tasks : List Task} (hnd : (tasks.map Task.id).Nodup)
    {t : Task} (h : t ∈ tasks) : taskMap tasks t.id = some t := by
  rcases Option.isSome_iff_exists.mp (taskMap_isSome h) with ⟨t', ht'⟩
  obtain ⟨hmem, hid⟩ := taskMap_mem ht'
  suffices hsuff : t' = t by rw [ht', hsuff]
  have := List.inj_on_of_nodup_map hnd
  have heq := this hmem h hid
  exact heq

/-- The inner fold of `dependents` over one task's dependency list. -/
theorem dependents_inner (tid : String) (dep : String) :
    ∀ (deps : List String) (m : String → List String),
      (deps.foldl
        (fun m' d => fun k => if k = d then m' k ++ [tid] else m' k) m) dep =
      m dep ++ List.replicate (deps.count dep) tid := by
  intro deps
  induction deps with
  | nil => intro m; simp
  | cons d tl ih =>
    intro m
    rw [List.foldl_cons, ih]
    by_cases hd : dep = d
    · subst hd
      simp only [List.count_cons, if_pos rfl, beq_self_eq_true, if_true]
      rw [List.append_assoc]
      congr 1
    · have : (d : String) ≠ dep := fun h => hd h.symm
      simp [hd, List.count_cons, this]

/-- Characterization of `dependents` at a key: the consumer ids of `dep`,
one per occurrence, in task order. -/
theorem dependentsMap_eq (tasks : List Task) (dep : String) :
    dependentsMap tasks dep =
      tasks.foldl
        (fun acc t => acc ++ List.replicate (t.dependencies.count dep) t.id)
        [] := by
  suffices hgen : ∀ (l : List Task) (m : String → List String),
      (l.foldl
        (fun m t => t.dependencies.foldl
          (fun m' d => fun k => if k = d then m' k ++ [t.id] else m' k) m) m) dep =
      l.foldl (fun acc t => acc ++ List.replicate (t.dependencies.count dep) t.id)
        (m dep) by
    exact hgen tasks _
  intro l
  induction l with
  | nil => intro m; simp
  | cons hd tl ih =>
    intro m
    rw [List.foldl_cons, ih, List.foldl_cons, dependents_inner]

theorem dependentsMap_length (tasks : List Task) (dep : String) :
    (dependentsMap tasks dep).length =
      (tasks.map (fun t => t.dependencies.count dep)).sum := by
  rw [dependentsMap_eq]
  induction tasks using List.reverseRecOn with
  | nil => simp
  | append_singleton l t ih => simp [ih]

theorem dependentsMap_mem {tasks : List Task} {dep x : String}
    (h : x ∈ dependentsMap tasks dep) :
    ∃ t ∈ tasks, x = t.id ∧ dep ∈ t.dependencies := by
  rw [dependentsMap_eq] at h
  induction tasks using List.reverseRecOn with
  | nil => simp at h
  | append_singleton l t ih =>
    rw [List.foldl_append] at h
    simp only [List.foldl_cons, List.foldl_nil, List.mem_append] at h
    rcases h with h | h
    · rcases ih h with ⟨t', ht', hx⟩
      exact ⟨t', List.mem_append_left _ ht', hx⟩
    · rcases List.eq_of_mem_replicate h with rfl
      refine ⟨t, List.mem_append_right _ (List.mem_singleton_self _), rfl, ?_⟩
      by_contra hdep
      rw [List.count_eq_zero_of_not_mem hdep] at h
      simp at h

theorem dependentsMap_consumer {tasks : List Task} {t : Task}
    (ht : t ∈ tasks) {dep : String} (hdep : dep ∈ t.dependencies) :
    t.id ∈ dependentsMap tasks dep := by
  rw [dependentsMap_eq]
  have hcnt : 0 < t.dependencies.count dep := List.count_pos_iff.mpr hdep
  induction tasks using List.reverseRecOn with
  | nil => simp at ht
  | append_singleton l t' ih =>
    rw [List.foldl_append]
    simp only [List.foldl_cons, List.foldl_nil, List.mem_append]
    rcases List.mem_append.mp ht with h | h
    · exact Or.inl (ih h)
    · rcases List.mem_singleton.mp h with rfl
      exact Or.inr (List.mem_replicate.mpr ⟨by omega, rfl⟩)

theorem dependentsMap_ne_nil {tasks : List Task} {t : Task}
    (ht : t ∈ tasks) {dep : String} (hdep : dep ∈ t.dependencies) :
    dependentsMap tasks dep ≠ [] := by
  intro hnil
  have := dependentsMap_consumer ht hdep
  rw [hnil] at this
  simp at this

/-! ## Lemmas on anchor seeding -/


theorem seedAnchors_ok_valid {tm : String → Option Task}
    {l : List (String × String)} {m lf : String → Option DT}
    (h : seedAnchors tm l m = .ok lf) :
    ∀ p ∈ l, (tm p.1).isSome ∧ (parse_date_string p.2).isOk := by
  induction l generalizing m with
  | nil => intro p hp; simp at hp
  | cons hd tl ih =>
    intro p hp
    rw [seedAnchors] at h
    by_cases hsome : (tm hd.1).isNone
    · rw [if_pos hsome] at h; cases h
    · rw [if_neg hsome] at h
      rcases hparse : parse_date_string hd.2 with e | v
      · rw [hparse] at h; cases h
      · rw [hparse] at h
        rcases List.mem_cons.mp hp with rfl | hp'
        · exact ⟨by simpa [Option.isNone_iff_eq_none, Option.isSome_iff_ne_none] using hsome,
                 by rw [hparse]; rfl⟩
        · exact ih h p hp'

theorem isNone_false_of_isSome {α : Type} {o : Option α}
    (h : o.isSome = true) : o.isNone = false := by
  cases o <;> simp_all

theorem seedAnchors_eq_fold {tm : String → Option Task}
    {l : List (String × String)}
    (hv : ∀ p ∈ l, (tm p.1).isSome ∧ (parse_date_string p.2).isOk) :
    ∀ m, seedAnchors tm l m = .ok (seedFold m l) := by
  induction l with
  | nil => intro m; simp [seedAnchors, seedFold]
  | cons hd tl ih =>
    intro m
    have hhd := hv hd (List.mem_cons_self _ _)
    have hc : (tm hd.1).isNone = false := isNone_false_of_isSome hhd.1
    rw [seedAnchors, hc]
    rcases hparse : parse_date_string hd.2 with e | v
    · rw [hparse] at hhd; simp [Except.isOk, Except.toBool] at hhd
    · have hfold : seedFold m (hd :: tl) = seedFold (upd m hd.1 v) tl := by
        simp [seedFold, anchorDT, hparse]
      simp only [Bool.false_eq_true, if_false, hparse, hfold]
      exact ih (fun p hp => hv p (List.mem_cons_of_mem _ hp)) _

theorem seedFold_lookup_notmem {l : List (String × String)}
    {m : String → Option DT} {k : String} (h : k ∉ l.map Prod.fst) :
    seedFold m l k = m k := by
  induction l generalizing m with
  | nil => rfl
  | cons hd tl ih =>
    simp only [List.map_cons, List.mem_cons] at h
    push_neg at h
    rw [seedFold, List.foldl_cons, ← seedFold, ih h.2, upd_ne _ _ h.1]

theorem seedFold_lookup_mem {l : List (String × String)}
    (hnd : (l.map Prod.fst).Nodup) {k s : String} (hmem : (k, s) ∈ l) :
    ∀ m, seedFold m l k = some (anchorDT (k, s)) := by
  induction l with
  | nil => simp at hmem
  | cons hd tl ih =>
    intro m
    simp only [List.map_cons, List.nodup_cons] at hnd
    rcases List.mem_cons.mp hmem with rfl | hmem'
    · rw [seedFold, List.foldl_cons, ← seedFold,
        seedFold_lookup_notmem hnd.1, upd_eq]
    · rw [seedFold, List.foldl_cons, ← seedFold, ih hnd.2 hmem']

theorem seedFold_lookup_some_go :
    ∀ (l : List (String × String)) (m : String → Option DT) (k : String)
      (v : DT), seedFold m l k = some v →
      (∃ s, (k, s) ∈ l ∧ anchorDT (k, s) = v) ∨ m k = some v := by
  intro l
  induction l with
  | nil => intro m k v h'; exact Or.inr h'
  | cons hd tl ih =>
    intro m k v h'
    rw [seedFold, List.foldl_cons, ← seedFold] at h'
    rcases ih _ _ _ h' with h'' | h''
    · rcases h'' with ⟨s, hs, hv⟩
      exact Or.inl ⟨s, List.mem_cons_of_mem _ hs, hv⟩
    · by_cases hk : k = hd.1
      · subst hk
        rw [upd_eq] at h''
        cases h''
        exact Or.inl ⟨hd.2, List.mem_cons_self _ _, rfl⟩
      · rw [upd_ne _ _ hk] at h''
        exact Or.inr h''

theorem seedFold_lookup_some {l : List (String × String)} {k : String} {v : DT}
    (h : seedFold (fun _ => none) l k = some v) :
    ∃ s, (k, s) ∈ l ∧ anchorDT (k, s) = v := by
  rcases seedFold_lookup_some_go l _ k v h with h' | h'
  · exact h'
  · cases h'

theorem seedAnchors_error_kind {tm : String → Option Task}
    {l : List (String × String)} {m : String → Option DT} {e : ScheduleError}
    (h : seedAnchors tm l m = .error e) :
    (∃ id, e = .AnchorTaskNotFound id) ∨ (∃ id d, e = .InvalidAnchorDate id d) := by
  induction l generalizing m with
  | nil => rw [seedAnchors] at h; cases h
  | cons hd tl ih =>
    rw [seedAnchors] at h
    by_cases hsome : (tm hd.1).isNone
    · rw [if_pos hsome] at h
      cases h
      exact Or.inl ⟨hd.1, rfl⟩
    · rw [if_neg hsome] at h
      rcases hparse : parse_date_string hd.2 with err | v
      · rw [hparse] at h
        cases h
        exact Or.inr ⟨hd.1, err, rfl⟩
      · rw [hparse] at h
        exact ih h

theorem seedAnchors_first_bad {tm : String → Option Task}
    {pre post : List (String × String)} {aid astr msg : String}
    (hpre : ∀ p ∈ pre, (tm p.1).isSome ∧ (parse_date_string p.2).isOk)
    (haid : (tm aid).isSome) (hparse : parse_date_string astr = .error msg) :
    ∀ m, seedAnchors tm (pre ++ (aid, astr) :: post) m =
      .error (.InvalidAnchorDate aid msg) := by
  induction pre with
  | nil =>
    intro m
    have hc : (tm aid).isNone = false := isNone_false_of_isSome haid
    rw [List.nil_append, seedAnchors, hc]
    simp only [Bool.false_eq_true, if_false, hparse]
  | cons hd tl ih =>
    intro m
    have hhd := hpre hd (List.mem_cons_self _ _)
    have hc : (tm hd.1).isNone = false := isNone_false_of_isSome hhd.1
    rw [List.cons_append, seedAnchors, hc]
    rcases hp : parse_date_string hd.2 with e | v
    · rw [hp] at hhd; simp [Except.isOk, Except.toBool] at hhd
    · simp only [Bool.false_eq_true, if_false, hp]
      exact ih (fun p hp' => hpre p (List.mem_cons_of_mem _ hp')) _

/-! ## Date-codec lemmas -/

theorem digit_val_bounds {c : Char} (h : c.isDigit = true) :
    48 ≤ c.toNat ∧ c.toNat ≤ 57 := by
  simp only [Char.isDigit, Bool.and_eq_true, decide_eq_true_eq, ge_iff_le] at h
  exact ⟨h.1, h.2⟩

theorem digit_not_ws {c : Char} (h : c.isDigit = true) :
    c.isWhitespace = false := by
  simp only [Char.isDigit, Bool.and_eq_true, decide_eq_true_eq, ge_iff_le] at h
  simp only [Char.isWhitespace]
  have h32 : c ≠ ' ' := by intro hc; subst hc; simp at h
  have h9 : c ≠ '\t' := by intro hc; subst hc; simp at h
  have h13 : c ≠ '\x0d' := by intro hc; subst hc; simp at h
  have h10 : c ≠ '\n' := by intro hc; subst hc; simp at h
  simp [h32, h9, h13, h10]

theorem digit_ne_dash {c : Char} (h : c.isDigit = true) : c ≠ '-' := by
  intro hc; subst hc; simp [Char.isDigit] at h

theorem digit_ne_plus {c : Char} (h : c.isDigit = true) : c ≠ '+' := by
  intro hc; subst hc; simp [Char.isDigit] at h

theorem skipWs_digit {c : Char} (h : c.isDigit = true) (cs : List Char) :
    skipWs (c :: cs) = c :: cs := by
  rw [skipWs, digit_not_ws h]
  simp

theorem scanDigits_zero (cs : List Char) : scanDigits cs 0 = (0, 0, cs) := by
  cases cs <;> rfl

theorem scanDigits_two {c1 c2 : Char} (h1 : c1.isDigit = true)
    (h2 : c2.isDigit = true) (rest : List Char) :
    scanDigits (c1 :: c2 :: rest) 2 =
      ((c1.toNat - '0'.toNat) * 10 + (c2.toNat - '0'.toNat), 2, rest) := by
  rw [scanDigits, if_pos h1]
  rw [scanDigits, if_pos h2]
  rw [scanDigits_zero]
  norm_num

theorem scanDigits_four {c1 c2 c3 c4 : Char} (h1 : c1.isDigit = true)
    (h2 : c2.isDigit = true) (h3 : c3.isDigit = true) (h4 : c4.isDigit = true)
    (rest : List Char) :
    scanDigits (c1 :: c2 :: c3 :: c4 :: rest) 4 =
      ((c1.toNat - '0'.toNat) * 1000 + (c2.toNat - '0'.toNat) * 100 +
        (c3.toNat - '0'.toNat) * 10 + (c4.toNat - '0'.toNat), 4, rest) := by
  rw [scanDigits, if_pos h1]
  rw [scanDigits, if_pos h2]
  rw [scanDigits, if_pos h3]
  rw [scanDigits, if_pos h4]
  rw [scanDigits_zero]
  norm_num
  ring

theorem parseUnsigned_two {c1 c2 : Char} (h1 : c1.isDigit = true)
    (h2 : c2.isDigit = true) (rest : List Char) :
    parseUnsigned 2 (c1 :: c2 :: rest) =
      some ((c1.toNat - '0'.toNat) * 10 + (c2.toNat - '0'.toNat), rest) := by
  rw [parseUnsigned, skipWs_digit h1, scanNumber, scanDigits_two h1 h2]
  simp

theorem parseYearField_digits {c1 c2 c3 c4 : Char} (h1 : c1.isDigit = true)
    (h2 : c2.isDigit = true) (h3 : c3.isDigit = true) (h4 : c4.isDigit = true)
    (rest : List Char) :
    parseYearField (c1 :: c2 :: c3 :: c4 :: rest) =
      some ((((c1.toNat - '0'.toNat) * 1000 + (c2.toNat - '0'.toNat) * 100 +
        (c3.toNat - '0'.toNat) * 10 + (c4.toNat - '0'.toNat) : Nat) : Int), rest) := by
  have b1 := digit_val_bounds h1
  have b2 := digit_val_bounds h2
  have b3 := digit_val_bounds h3
  have b4 := digit_val_bounds h4
  rw [parseYearField]
  rw [skipWs_digit h1]
  split
  · rename_i rest' heq
    injection heq with hc hrest
    exact absurd hc (digit_ne_dash h1)
  · rename_i rest' heq
    injection heq with hc hrest
    exact absurd hc (digit_ne_plus h1)
  · simp only [scanNumber, scanDigits_four h1 h2 h3 h4]
    norm_num

theorem parseLit_cons (c : Char) (rest : List Char) :
    parseLit c (c :: rest) = some rest := by
  simp [parseLit]

/-- A string of the exact spec shape `YYYY-MM-DDThh:mm:ss`, with in-range
field values, parses to exactly that timestamp. -/
theorem parse_exact_of_shape1 {s : String} {y mo d h mi sec : Int}
    (hsh : specShapeDateTime s = some (y, mo, d, h, mi, sec))
    (hv : validYmd y mo d = true) (hh : h ≤ 23) (hmi : mi ≤ 59)
    (hsec : sec ≤ 59) :
    parse_date_string s = .ok (secsOfDateTime y mo d h mi sec) := by
  unfold specShapeDateTime at hsh
  split at hsh
  case h_2 => cases hsh
  rename_i y1 y2 y3 y4 c1 m1 m2 c2 d1 d2 c3 h1c h2c c4 n1 n2 c5 s1 s2 heq
  split at hsh
  case isFalse => cases hsh
  rename_i hdig
  obtain ⟨hc1, hc2, hc3, hc4, hc5, dy1, dy2, dy3, dy4, dm1, dm2, dd1, dd2,
    dh1, dh2, dn1, dn2, ds1, ds2⟩ := hdig
  subst hc1 hc2 hc3 hc4 hc5
  injection hsh with hsh
  simp only [Prod.mk.injEq] at hsh
  obtain ⟨hy, hmo, hd, hh', hmi', hsec'⟩ := hsh
  subst hy hmo hd hh' hmi' hsec'
  rw [parse_date_string]
  rw [show parseDateTimeFormat s.data =
      some (secsOfDateTime ((y1.toNat - '0'.toNat) * 1000 + (y2.toNat - '0'.toNat) * 100 +
        (y3.toNat - '0'.toNat) * 10 + (y4.toNat - '0'.toNat) : Nat)
        ((m1.toNat - '0'.toNat) * 10 + (m2.toNat - '0'.toNat) : Nat)
        ((d1.toNat - '0'.toNat) * 10 + (d2.toNat - '0'.toNat) : Nat)
        ((h1c.toNat - '0'.toNat) * 10 + (h2c.toNat - '0'.toNat) : Nat)
        ((n1.toNat - '0'.toNat) * 10 + (n2.toNat - '0'.toNat) : Nat)
        ((s1.toNat - '0'.toNat) * 10 + (s2.toNat - '0'.toNat) : Nat)) from ?_]
  rw [heq]
  have hsecnat : (s1.toNat - '0'.toNat) * 10 + (s2.toNat - '0'.toNat) ≤ 59 := by
    exact_mod_cast hsec
  have hhnat : (h1c.toNat - '0'.toNat) * 10 + (h2c.toNat - '0'.toNat) ≤ 23 := by
    exact_mod_cast hh
  have hminat : (n1.toNat - '0'.toNat) * 10 + (n2.toNat - '0'.toNat) ≤ 59 := by
    exact_mod_cast hmi
  simp only [parseDateTimeFormat, parseYearField_digits dy1 dy2 dy3 dy4,
    parseLit_cons, parseUnsigned_two dm1 dm2, parseUnsigned_two dd1 dd2,
    parseUnsigned_two dh1 dh2, parseUnsigned_two dn1 dn2,
    parseUnsigned_two ds1 ds2, Option.bind_eq_bind, Option.some_bind]
  rw [if_pos ⟨trivial, hv, hhnat, hminat, by omega⟩]
  rw [if_neg (by omega : ¬ ((s1.toNat - '0'.toNat) * 10 + (s2.toNat - '0'.toNat) = 60))]

/-- A string of the exact spec shape `YYYY-MM-DD`, with a valid calendar
date, parses to 23:59:59 on that date. -/
theorem parse_eod_of_shape2 {s : String} {y mo d : Int}
    (hsh : specShapeDate s = some (y, mo, d))
    (hv : validYmd y mo d = true) :
    parse_date_string s = .ok (secsOfDateTime y mo d 23 59 59) := by
  unfold specShapeDate at hsh
  split at hsh
  case h_2 => cases hsh
  rename_i y1 y2 y3 y4 c1 m1 m2 c2 d1 d2 heq
  split at hsh
  case isFalse => cases hsh
  rename_i hdig
  obtain ⟨hc1, hc2, dy1, dy2, dy3, dy4, dm1, dm2, dd1, dd2⟩ := hdig
  subst hc1 hc2
  injection hsh with hsh
  simp only [Prod.mk.injEq] at hsh
  obtain ⟨hy, hmo, hd⟩ := hsh
  subst hy hmo hd
  rw [parse_date_string, heq]
  have hdtf : parseDateTimeFormat
      [y1, y2, y3, y4, '-', m1, m2, '-', d1, d2] = none := by
    simp only [parseDateTimeFormat, parseYearField_digits dy1 dy2 dy3 dy4,
      parseLit_cons, parseUnsigned_two dm1 dm2, parseUnsigned_two dd1 dd2,
      Option.bind_eq_bind, Option.some_bind]
    rfl
  rw [hdtf]
  have hdf : parseDateFormat [y1, y2, y3, y4, '-', m1, m2, '-', d1, d2] =
      some (daysFromCivil
        (((y1.toNat - '0'.toNat) * 1000 + (y2.toNat - '0'.toNat) * 100 +
          (y3.toNat - '0'.toNat) * 10 + (y4.toNat - '0'.toNat) : Nat) : Int)
        (((m1.toNat - '0'.toNat) * 10 + (m2.toNat - '0'.toNat) : Nat) : Int)
        (((d1.toNat - '0'.toNat) * 10 + (d2.toNat - '0'.toNat) : Nat) : Int)) := by
    simp only [parseDateFormat, parseYearField_digits dy1 dy2 dy3 dy4,
      parseLit_cons, parseUnsigned_two dm1 dm2, parseUnsigned_two dd1 dd2,
      Option.bind_eq_bind, Option.some_bind]
    rw [if_pos ⟨trivial, hv⟩]
  rw [hdf]
  rw [secsOfDateTime]
  norm_num
  generalize daysFromCivil
    ((((y1.toNat - '0'.toNat) * 1000 + (y2.toNat - '0'.toNat) * 100 +
      (y3.toNat - '0'.toNat) * 10 + (y4.toNat - '0'.toNat) : Nat) : Int))
    ((((m1.toNat - '0'.toNat) * 10 + (m2.toNat - '0'.toNat) : Nat) : Int))
    ((((d1.toNat - '0'.toNat) * 10 + (d2.toNat - '0'.toNat) : Nat) : Int)) = X
  ring

theorem digitChar_isDigit {n : Nat} (h : n ≤ 9) :
    (digitChar n).isDigit = true := by
  interval_cases n <;> decide

theorem pad2_data {n : Int} : (pad2 n).data =
    [digitChar (n.toNat / 10), digitChar (n.toNat % 10)] := rfl

theorem pad4_data {n : Int} : (pad4 n).data =
    [digitChar (n.toNat / 1000), digitChar (n.toNat / 100 % 10),
     digitChar (n.toNat / 10 % 10), digitChar (n.toNat % 10)] := rfl

/-- Formatted output has the spec shape `YYYY-MM-DDThh:mm:ss` whenever the
formatted timestamp's civil year lies in 0..=9999 (month and day of the
civil conversion are listed as explicit bounds). -/
theorem formatDT_shape {v : DT} {y m d : Int}
    (hc : civilFromDays (v / 86400) = (y, m, d))
    (hy0 : 0 ≤ y) (hy : y ≤ 9999) (hm0 : 1 ≤ m) (hm : m ≤ 12)
    (hd0 : 1 ≤ d) (hd : d ≤ 31) :
    (specShapeDateTime (formatDT v)).isSome = true := by
  have hsod0 : 0 ≤ v % 86400 := Int.emod_nonneg v (by norm_num)
  have hsod : v % 86400 < 86400 := Int.emod_lt_of_pos v (by norm_num)
  rw [formatDT]
  rw [hc]
  rw [formatYear, if_pos ⟨hy0, hy⟩]
  have hdata : (pad4 y ++ "-" ++ pad2 m ++ "-" ++ pad2 d ++ "T" ++
      pad2 (v % 86400 / 3600) ++ ":" ++ pad2 (v % 86400 % 3600 / 60) ++ ":" ++
      pad2 (v % 86400 % 60)).data =
      [digitChar (y.toNat / 1000), digitChar (y.toNat / 100 % 10),
       digitChar (y.toNat / 10 % 10), digitChar (y.toNat % 10), '-',
       digitChar (m.toNat / 10), digitChar (m.toNat % 10), '-',
       digitChar (d.toNat / 10), digitChar (d.toNat % 10), 'T',
       digitChar ((v % 86400 / 3600).toNat / 10),
       digitChar ((v % 86400 / 3600).toNat % 10), ':',
       digitChar ((v % 86400 % 3600 / 60).toNat / 10),
       digitChar ((v % 86400 % 3600 / 60).toNat % 10), ':',
       digitChar ((v % 86400 % 60).toNat / 10),
       digitChar ((v % 86400 % 60).toNat % 10)] := by
    simp only [String.data_append, pad2_data, pad4_data]
    rfl
  rw [specShapeDateTime, hdata]
  have hyb : y.toNat ≤ 9999 := Int.toNat_le.mpr (by omega)
  have hmb : m.toNat ≤ 99 := Int.toNat_le.mpr (by omega)
  have hdb : d.toNat ≤ 99 := Int.toNat_le.mpr (by omega)
  have hhb : (v % 86400 / 3600).toNat ≤ 99 := Int.toNat_le.mpr (by omega)
  have hmib : (v % 86400 % 3600 / 60).toNat ≤ 99 := by
    have e0 : 0 ≤ v % 86400 % 3600 := Int.emod_nonneg _ (by norm_num)
    have e1 : v % 86400 % 3600 < 3600 := Int.emod_lt_of_pos _ (by norm_num)
    exact Int.toNat_le.mpr (by omega)
  have hsb : (v % 86400 % 60).toNat ≤ 99 := by
    have e0 : 0 ≤ v % 86400 % 60 := Int.emod_nonneg _ (by norm_num)
    have e1 : v % 86400 % 60 < 60 := Int.emod_lt_of_pos _ (by norm_num)
    exact Int.toNat_le.mpr (by omega)
  dsimp only
  rw [if_pos]
  · rfl
  · refine ⟨rfl, rfl, rfl, rfl, rfl, ?_, ?_, ?_, ?_, ?_, ?_, ?_, ?_, ?_, ?_,
      ?_, ?_, ?_, ?_⟩ <;> apply digitChar_isDigit <;> omega

/-! ## Backward-pass propagation lemmas -/


theorem step_visited (ls : DT) (st : BState) (dep : String) :
    (propagateStep ls st dep).visited = st.visited := by
  rw [propagateStep]
  rcases h : st.counts dep with _ | c <;> simp [h]

theorem step_sched (ls : DT) (st : BState) (dep : String) :
    (propagateStep ls st dep).sched = st.sched := by
  rw [propagateStep]
  rcases h : st.counts dep with _ | c <;> simp [h]

theorem step_counts_ne (ls : DT) (st : BState) {dep id : String}
    (h : id ≠ dep) : (propagateStep ls st dep).counts id = st.counts id := by
  rw [propagateStep]
  rcases hc : st.counts dep with _ | c
  · simp [hc]
  · simp [hc, upd_ne _ _ h]

theorem step_counts_eq (ls : DT) (st : BState) (dep : String) :
    (propagateStep ls st dep).counts dep =
      match st.counts dep with
      | none => none
      | some c => some (decWrap c) := by
  rw [propagateStep]
  rcases hc : st.counts dep with _ | c
  · simp [hc]
  · simp [hc, upd_eq]

theorem step_lf_ne (ls : DT) (st : BState) {dep id : String}
    (h : id ≠ dep) :
    (propagateStep ls st dep).late_finish id = st.late_finish id := by
  rw [propagateStep]
  rcases hc : st.counts dep with _ | c
  · simp [hc, upd_ne _ _ h]
  · simp [hc, upd_ne _ _ h]

theorem step_lf_eq (ls : DT) (st : BState) (dep : String) :
    (propagateStep ls st dep).late_finish dep =
      some (if ls < (st.late_finish dep).getD NAIVEDATETIME_MAX then ls
            else (st.late_finish dep).getD NAIVEDATETIME_MAX) := by
  rw [propagateStep]
  rcases hc : st.counts dep with _ | c
  · simp [hc, upd_eq]
  · simp [hc, upd_eq]

theorem step_queue (ls : DT) (st : BState) (dep : String) :
    (propagateStep ls st dep).queue = st.queue ∨
    ((propagateStep ls st dep).queue = dep :: st.queue ∧
      (propagateStep ls st dep).counts dep = some 0) := by
  rw [propagateStep]
  rcases hc : st.counts dep with _ | c
  · left; simp [hc]
  · by_cases hz : decWrap c = 0
    · right
      constructor
      · simp [hc, hz]
      · simp [hc, upd_eq, hz]
    · left; simp [hc, hz]


theorem propagate_visited (ls : DT) (deps : List String) (s : BState) :
    (propagate ls deps s).visited = s.visited := by
  induction deps generalizing s with
  | nil => rfl
  | cons d tl ih =>
    rw [propagate, List.foldl_cons, ← propagate, ih, step_visited]

theorem propagate_sched (ls : DT) (deps : List String) (s : BState) :
    (propagate ls deps s).sched = s.sched := by
  induction deps generalizing s with
  | nil => rfl
  | cons d tl ih =>
    rw [propagate, List.foldl_cons, ← propagate, ih, step_sched]

theorem propagate_lf_notmem (ls : DT) {deps : List String} {id : String}
    (h : id ∉ deps) (s : BState) :
    (propagate ls deps s).late_finish id = s.late_finish id := by
  induction deps generalizing s with
  | nil => rfl
  | cons d tl ih =>
    simp only [List.mem_cons, not_or] at h
    rw [propagate, List.foldl_cons, ← propagate, ih h.2, step_lf_ne _ _ h.1]

theorem propagate_lf_mono (ls : DT) (deps : List String) (s : BState) :
    ∀ id v, (propagate ls deps s).late_finish id = some v →
      (∃ w, s.late_finish id = some w ∧ v ≤ w) ∨ v ≤ ls := by
  induction deps generalizing s with
  | nil => intro id v h; exact Or.inl ⟨v, h, le_refl v⟩
  | cons d tl ih =>
    intro id v h
    rw [propagate, List.foldl_cons, ← propagate] at h
    rcases ih _ _ _ h with ⟨w, hw, hvw⟩ | hv
    · by_cases hid : id = d
      · subst hid
        rw [step_lf_eq] at hw
        injection hw with hw
        subst hw
        by_cases hlt : ls < (s.late_finish id).getD NAIVEDATETIME_MAX
        · rw [if_pos hlt] at hvw
          exact Or.inr hvw
        · rw [if_neg hlt] at hvw
          rcases hcur : s.late_finish id with _ | w'
          · push_neg at hlt
            rw [hcur] at hvw hlt
            simp only [Option.getD_none] at hvw hlt
            exact Or.inr (le_trans hvw hlt)
          · left
            exact ⟨w', rfl, by rw [hcur] at hvw; simpa using hvw⟩
      · rw [step_lf_ne _ _ hid] at hw
        exact Or.inl ⟨w, hw, hvw⟩
    · exact Or.inr hv


theorem propagate_lf_isSome (ls : DT) (deps : List String) (s : BState)
    {id : String} (h : (s.late_finish id).isSome = true) :
    ((propagate ls deps s).late_finish id).isSome = true := by
  induction deps generalizing s with
  | nil => exact h
  | cons d tl ih =>
    rw [propagate, List.foldl_cons, ← propagate]
    apply ih
    by_cases hid : id = d
    · subst hid; rw [step_lf_eq]; rfl
    · rw [step_lf_ne _ _ hid]; exact h

theorem propagate_lf_mem (ls : DT) {deps : List String} {id : String}
    (hmem : id ∈ deps) (s : BState) :
    ∃ v, (propagate ls deps s).late_finish id = some v ∧ v ≤ ls := by
  induction deps generalizing s with
  | nil => simp at hmem
  | cons d tl ih =>
    rw [propagate, List.foldl_cons, ← propagate]
    by_cases htl : id ∈ tl
    · exact ih htl _
    · have hid : id = d := by
        rcases List.mem_cons.mp hmem with h | h
        · exact h
        · exact absurd h htl
      subst hid
      rw [propagate_lf_notmem ls htl]
      rw [step_lf_eq]
      refine ⟨_, rfl, ?_⟩
      by_cases hlt : ls < (s.late_finish id).getD NAIVEDATETIME_MAX
      · rw [if_pos hlt]
      · rw [if_neg hlt]
        push_neg at hlt
        exact hlt

theorem propagate_counts_formula (ls : DT) (deps : List String) (s : BState)
    (hbound : ∀ id c, s.counts id = some c → deps.count id ≤ c) :
    ∀ id, (propagate ls deps s).counts id =
      match s.counts id with
      | none => none
      | some c => some (c - deps.count id) := by
  induction deps generalizing s with
  | nil =>
    intro id
    rcases h : s.counts id with _ | c <;> simp [propagate, h]
  | cons d tl ih =>
    intro id
    rw [propagate, List.foldl_cons, ← propagate]
    have hbound' : ∀ id c, (propagateStep ls s d).counts id = some c →
        tl.count id ≤ c := by
      intro id' c' h'
      by_cases hid : id' = d
      · subst hid
        rw [step_counts_eq] at h'
        rcases hc : s.counts id' with _ | c0
        · rw [hc] at h'; cases h'
        · rw [hc] at h'
          injection h' with h'
          have hb := hbound id' c0 hc
          rw [List.count_cons_self] at hb
          rw [decWrap] at h'
          rw [if_neg (by omega)] at h'
          omega
      · rw [step_counts_ne _ _ hid] at h'
        have hb := hbound id' c' h'
        rw [List.count_cons_of_ne hid] at hb
        omega
    rw [ih _ hbound']
    by_cases hid : id = d
    · subst hid
      rw [step_counts_eq]
      rcases hc : s.counts id with _ | c
      · rfl
      · dsimp only
        have hb := hbound id c hc
        rw [List.count_cons_self] at hb
        rw [decWrap]
        rw [if_neg (by omega)]
        rw [List.count_cons_self]
        congr 1
        omega
    · rw [step_counts_ne _ _ hid]
      rw [List.count_cons_of_ne hid]

theorem propagate_queue_suffix (ls : DT) (deps : List String) (s : BState)
    (hbound : ∀ id c, s.counts id = some c → deps.count id ≤ c) :
    ∃ pushed, (propagate ls deps s).queue = pushed ++ s.queue ∧
      ∀ p ∈ pushed, p ∈ deps ∧ (propagate ls deps s).counts p = some 0 := by
  induction deps generalizing s with
  | nil => exact ⟨[], rfl, by simp⟩
  | cons d tl ih =>
    rw [propagate, List.foldl_cons, ← propagate]
    have hbound' : ∀ id c, (propagateStep ls s d).counts id = some c →
        tl.count id ≤ c := by
      intro id' c' h'
      by_cases hid : id' = d
      · subst hid
        rw [step_counts_eq] at h'
        rcases hc : s.counts id' with _ | c0
        · rw [hc] at h'; cases h'
        · rw [hc] at h'
          injection h' with h'
          have hb := hbound id' c0 hc
          rw [List.count_cons_self] at hb
          rw [decWrap] at h'
          rw [if_neg (by omega)] at h'
          omega
      · rw [step_counts_ne _ _ hid] at h'
        have hb := hbound id' c' h'
        rw [List.count_cons_of_ne hid] at hb
        omega
    rcases ih _ hbound' with ⟨pushed, hq, hp⟩
    rcases step_queue ls s d with hs | ⟨hs, hc0⟩
    · refine ⟨pushed, by rw [hq, hs], ?_⟩
      intro p hmem
      exact ⟨List.mem_cons_of_mem _ (hp p hmem).1, (hp p hmem).2⟩
    · refine ⟨pushed ++ [d], by rw [hq, hs]; simp, ?_⟩
      intro p hmem
      rcases List.mem_append.mp hmem with hmem' | hmem'
      · exact ⟨List.mem_cons_of_mem _ (hp p hmem').1, (hp p hmem').2⟩
      · have hpd := List.mem_singleton.mp hmem'
        rw [hpd]
        constructor
        · exact List.mem_cons_self _ _
        · have hdc : d ∉ tl := by
            intro hdtl
            have hb0 := hbound' d 0 hc0
            have hpos : 0 < tl.count d := List.count_pos_iff.mpr hdtl
            omega
          rw [propagate_counts_formula ls tl _ hbound' d]
          rw [hc0]
          simp [List.count_eq_zero_of_not_mem hdc]

/-! ## Structure of the entry point -/

theorem backResult_error_kind {req : ScheduleRequest} {e : ScheduleError}
    (h : backResult req = .error e) : e ≠ .CycleDetected := by
  rw [backResult, backOutcome] at h
  rcases hseed : seedAnchors (taskMap req.tasks) req.anchors (fun _ => none)
    with e' | lf0
  · rw [hseed] at h
    dsimp only at h
    injection h with h'
    subst h'
    rcases seedAnchors_error_kind hseed with ⟨id, rfl⟩ | ⟨id, d, rfl⟩ <;> simp
  · rw [hseed] at h
    dsimp only at h
    rcases hloop : backLoop (taskMap req.tasks) (fuelBound req.tasks)
        (initBState req.tasks lf0) with s | ⟨tid, s⟩ | ⟨t, s⟩
    · rw [hloop] at h
      dsimp only at h
      cases h
    · rw [hloop] at h
      dsimp only at h
      injection h with h'
      subst h'
      simp
    · rw [hloop] at h
      dsimp only at h
      injection h with h'
      subst h'
      simp

/-- `CycleDetected` is dead code: no input produces it.  The only site that
could return it requires an empty backward schedule after the completeness
check has passed on a nonempty task list, which is contradictory. -/
theorem calculate_ne_cycleDetected (req : ScheduleRequest) :
    calculate_backwards_schedule req ≠ .error .CycleDetected := by
  intro h
  rw [calculate_backwards_schedule] at h
  by_cases hempty : req.tasks = []
  · rw [if_pos hempty] at h; cases h
  · rw [if_neg hempty] at h
    rcases hback : backResult req with e | fin
    · rw [hback] at h
      dsimp only at h
      injection h with h'
      exact backResult_error_kind hback h'
    · rw [hback] at h
      dsimp only at h
      by_cases hmiss : fin.sched.length ≠ req.tasks.length ∧
          missingNames req.tasks fin.sched ≠ []
      · rw [if_pos hmiss] at h; cases h
      · rw [if_neg hmiss] at h
        have hsne : fin.sched ≠ [] := by
          push_neg at hmiss
          rcases List.exists_mem_of_ne_nil _ hempty with ⟨t0, ht0⟩
          by_cases hlen : fin.sched.length = req.tasks.length
          · intro hnil
            rw [hnil] at hlen
            have hpos := List.length_pos.mpr hempty
            simp only [List.length_nil] at hlen
            omega
          · have hm : missingNames req.tasks fin.sched = [] := hmiss hlen
            have hfil : req.tasks.filter
                (fun t => !(fin.sched.any (fun e => e.1 == t.id))) = [] :=
              List.map_eq_nil_iff.mp hm
            have hany := List.filter_eq_nil_iff.mp hfil t0 ht0
            simp only [Bool.not_eq_true', Bool.not_eq_false] at hany
            intro hnil
            rw [hnil] at hany
            simp at hany
        rcases hps : projectStart fin.sched with _ | ps
        · rw [projectStart, List.min?_eq_none_iff, List.map_eq_nil_iff] at hps
          exact hsne hps
        · rw [hps] at h; cases h

theorem upd_comm {α : Type} (m : String → Option α) {k1 k2 : String}
    (v1 v2 : α) (h : k1 ≠ k2) :
    upd (upd m k1 v1) k2 v2 = upd (upd m k2 v2) k1 v1 := by
  funext k
  by_cases h1 : k = k1 <;> by_cases h2 : k = k2 <;>
    simp_all [upd]

theorem calculate_seed_error {req : ScheduleRequest} {e : ScheduleError}
    (ht : req.tasks ≠ [])
    (h : seedAnchors (taskMap req.tasks) req.anchors (fun _ => none) = .error e) :
    calculate_backwards_schedule req = .error e := by
  rw [calculate_backwards_schedule, if_neg ht, backResult, backOutcome, h]

/-- The anchors map influences the run only through the seeded
`late_finish`; equal seeds give equal results. -/
theorem calculate_seed_congr {t : List Task} {l1 l2 : List (String × String)}
    (hseed : seedAnchors (taskMap t) l1 (fun _ => none) =
             seedAnchors (taskMap t) l2 (fun _ => none)) :
    calculate_backwards_schedule { tasks := t, anchors := l1 } =
    calculate_backwards_schedule { tasks := t, anchors := l2 } := by
  rw [calculate_backwards_schedule, calculate_backwards_schedule]
  dsimp only
  rw [backResult, backResult, backOutcome, backOutcome]
  dsimp only
  rw [hseed]

/-! ## Claims C10, C6, C7 -/

/-- C10: when `request.tasks` is empty, `calculate_backwards_schedule`
returns `Ok` with the empty list before any anchor validation or parsing
runs, so it returns `Ok([])` even when `request.anchors` is non-empty and
contains unknown task identifiers or unparseable date strings that would
otherwise trigger `AnchorTaskNotFound` or `InvalidAnchorDate`. -/
theorem c10_empty_tasks_short_circuit :
    (∀ anchors : List (String × String),
      calculate_backwards_schedule { tasks := [], anchors := anchors } = .ok []) ∧
    calculate_backwards_schedule
        { tasks := [], anchors := [("ghost", "not a date")] } = .ok [] ∧
    (parse_date_string "not a date").isOk = false ∧
    taskMap ([] : List Task) "ghost" = none :=
  ⟨fun _ => rfl, rfl, rfl, rfl⟩

/-- C6 counterexample: an input whose dependency relation is a two-task
cycle is rejected with `NoEndDateComputed` (via the aggregate
disconnected-tasks message), not with `CycleDetected` as the claim states. -/
theorem c6_counterexample :
    calculate_backwards_schedule
        { tasks := [mkTask "a" "Task A" 1 none ["b"],
                    mkTask "b" "Task B" 1 none ["a"]]
          anchors := [("a", "2026-01-15")] } =
      .error (.NoEndDateComputed
        "Tasks not processing from anchors (disconnected?): [\"Task A\", \"Task B\"]") ∧
    calculate_backwards_schedule
        { tasks := [mkTask "a" "Task A" 1 none ["b"],
                    mkTask "b" "Task B" 1 none ["a"]]
          anchors := [("a", "2026-01-15")] } ≠
      .error .CycleDetected := by
  constructor
  · decide
  · decide

/-- C7 counterexample: the returned error value does depend on the
iteration order of the anchors hash map.  The two requests below hold the
same anchors map (the association lists are permutations of each other with
distinct keys), yet the resulting `AnchorTaskNotFound` errors differ. -/
theorem c7_counterexample :
    ([("y", "2026-01-15"), ("z", "2026-01-15")] : List (String × String)).Perm
      [("z", "2026-01-15"), ("y", "2026-01-15")] ∧
    calculate_backwards_schedule
        { tasks := [mkTask "a" "Task A" 1 none []]
          anchors := [("y", "2026-01-15"), ("z", "2026-01-15")] } ≠
      calculate_backwards_schedule
        { tasks := [mkTask "a" "Task A" 1 none []]
          anchors := [("z", "2026-01-15"), ("y", "2026-01-15")] } := by
  constructor
  · decide
  · decide

/-- C7 amended: on any input on which `calculate_backwards_schedule`
succeeds, the result is independent of the iteration order of the anchors
hash map (two association lists that are permutations of one another with
distinct keys yield the same `Ok` schedule); the error value of a failing
run may depend on that order.  Repeated calls on identical input are
identical because the function is deterministic. -/
theorem c7_amended_anchor_order_independence {t : List Task}
    {l1 l2 : List (String × String)} {out : List ScheduledTask}
    (hperm : l1.Perm l2) (hnd : (l1.map Prod.fst).Nodup)
    (hok : calculate_backwards_schedule { tasks := t, anchors := l1 } = .ok out) :
    calculate_backwards_schedule { tasks := t, anchors := l2 } = .ok out := by
  by_cases htasks : t = []
  · subst htasks
    have hnil : calculate_backwards_schedule
        { tasks := [], anchors := l1 } = .ok [] := rfl
    rw [hnil] at hok
    injection hok with h'
    subst h'
    rfl
  · rcases hseed : seedAnchors (taskMap t) l1 (fun _ => none) with e | lf0
    · rw [calculate_seed_error htasks hseed] at hok
      cases hok
    · have hvalid := seedAnchors_ok_valid hseed
      have hvalid2 : ∀ p ∈ l2, ((taskMap t) p.1).isSome ∧
          (parse_date_string p.2).isOk :=
        fun p hp => hvalid p (hperm.mem_iff.mpr hp)
      have h1 := seedAnchors_eq_fold hvalid (fun _ => none)
      have h2 := seedAnchors_eq_fold hvalid2 (fun _ => none)
      have hfoldeq : seedFold (fun _ => none) l1 = seedFold (fun _ => none) l2 := by
        apply List.Perm.foldl_eq' hperm
        intro x hx y hy z
        by_cases hxy : x = y
        · subst hxy; rfl
        · have hk : x.1 ≠ y.1 :=
            fun hk => hxy (List.inj_on_of_nodup_map hnd hx hy hk)
          exact upd_comm z _ _ hk
      have : seedAnchors (taskMap t) l1 (fun _ => none) =
          seedAnchors (taskMap t) l2 (fun _ => none) := by
        rw [h1, h2, hfoldeq]
      rw [← calculate_seed_congr this]
      exact hok

/-- C7 witness: the amended order-independence theorem applied to the
competing-anchors scenario in both iteration orders. -/
theorem c7_witness :
    calculate_backwards_schedule
        { tasks := [mkTask "a" "Task A" 1 none [], mkTask "b" "Task B" 1 none ["a"]]
          anchors := [("b", "2026-01-10T00:00:00"), ("a", "2026-01-20T00:00:00")] } =
      .ok [
        { id := "a", name := "Task A", start_date := "2026-01-08T00:00:00"
          end_date := "2026-01-09T00:00:00", completed := false, notes := none
          is_critical := true, slack_minutes := 0, is_milestone := false },
        { id := "b", name := "Task B", start_date := "2026-01-09T00:00:00"
          end_date := "2026-01-10T00:00:00", completed := false, notes := none
          is_critical := true, slack_minutes := 0, is_milestone := false }] :=
  @c7_amended_anchor_order_independence
    [mkTask "a" "Task A" 1 none [], mkTask "b" "Task B" 1 none ["a"]]
    [("a", "2026-01-20T00:00:00"), ("b", "2026-01-10T00:00:00")]
    [("b", "2026-01-10T00:00:00"), ("a", "2026-01-20T00:00:00")]
    _ (by decide) (by decide) (by decide)


theorem propagate_lf_le_old (ls : DT) (deps : List String) (s : BState) :
    ∀ id v w, (propagate ls deps s).late_finish id = some v →
      s.late_finish id = some w → v ≤ w := by
  induction deps generalizing s with
  | nil =>
    intro id v w h h'
    have h2 : s.late_finish id = some v := h
    rw [h2] at h'
    injection h' with h'
    exact le_of_eq h'
  | cons d tl ih =>
    intro id v w h h'
    rw [propagate, List.foldl_cons, ← propagate] at h
    by_cases hid : id = d
    · subst hid
      have hv2 := ih _ _ _ _ h (step_lf_eq ls s id)
      rw [h'] at hv2
      simp only [Option.getD_some] at hv2
      by_cases hlt : ls < w
      · rw [if_pos hlt] at hv2; exact le_trans hv2 (le_of_lt hlt)
      · rw [if_neg hlt] at hv2; exact hv2
    · refine ih _ _ _ _ h ?_
      rw [step_lf_ne _ _ hid]
      exact h'

/-- Sum of per-id dependency counts over a duplicate-free id list is at
most the total occurrence count, i.e. the length of the `dependents`
list. -/
theorem visitedDecr_le_go {tasks : List Task} (dep : String) :
    ∀ (vs : List String) (pool : List Task), vs.Nodup →
      (∀ v ∈ vs, ∃ tv ∈ pool, taskMap tasks v = some tv) →
      visitedDecr (taskMap tasks) vs dep ≤
        (pool.map (fun t => t.dependencies.count dep)).sum := by
  intro vs
  induction vs with
  | nil => intro pool _ _; simp [visitedDecr]
  | cons v vs' ih =>
    intro pool hnd htm
    rcases htm v (List.mem_cons_self _ _) with ⟨tv, htvpool, htv⟩
    have hperm : pool.Perm (tv :: pool.erase tv) := List.perm_cons_erase htvpool
    have hsum : (pool.map (fun t => t.dependencies.count dep)).sum =
        tv.dependencies.count dep +
        ((pool.erase tv).map (fun t => t.dependencies.count dep)).sum := by
      rw [(hperm.map (fun t => t.dependencies.count dep)).sum_eq]
      simp
    rw [hsum]
    rw [visitedDecr]
    simp only [List.map_cons, List.sum_cons, htv]
    have hrec : visitedDecr (taskMap tasks) vs' dep ≤
        ((pool.erase tv).map (fun t => t.dependencies.count dep)).sum := by
      apply ih
      · exact (List.nodup_cons.mp hnd).2
      · intro v' hv'
        rcases htm v' (List.mem_cons_of_mem _ hv') with ⟨tv', htvpool', htv'⟩
        refine ⟨tv', ?_, htv'⟩
        refine (List.mem_erase_of_ne ?_).mpr htvpool'
        intro heq
        subst heq
        have h1 := (taskMap_mem htv).2
        have h2 := (taskMap_mem htv').2
        have : v = v' := by rw [← h1, h2]
        subst this
        exact (List.nodup_cons.mp hnd).1 hv'
    rw [visitedDecr] at hrec
    omega

theorem visitedDecr_le {tasks : List Task} {vs : List String} (hnd : vs.Nodup)
    (htm : ∀ v ∈ vs, ∃ tv, taskMap tasks v = some tv) (dep : String) :
    visitedDecr (taskMap tasks) vs dep ≤ (dependentsMap tasks dep).length := by
  rw [dependentsMap_length]
  apply visitedDecr_le_go dep vs tasks hnd
  intro v hv
  rcases htm v hv with ⟨tv, htv⟩
  exact ⟨tv, (taskMap_mem htv).1, htv⟩

/-- If every occurrence of `dep` has been discharged by a visited id, then
every consumer of `dep` is visited. -/
theorem consumers_visited {tasks : List Task} {vs : List String}
    (hnd : vs.Nodup) (htm : ∀ v ∈ vs, ∃ tv, taskMap tasks v = some tv)
    {dep : String}
    (hfull : (dependentsMap tasks dep).length ≤
      visitedDecr (taskMap tasks) vs dep) :
    ∀ cid t, taskMap tasks cid = some t → dep ∈ t.dependencies → cid ∈ vs := by
  intro cid t htc hdep
  by_contra hcid
  have hnd' : (cid :: vs).Nodup := List.nodup_cons.mpr ⟨hcid, hnd⟩
  have htm' : ∀ v ∈ cid :: vs, ∃ tv, taskMap tasks v = some tv := by
    intro v hv
    rcases List.mem_cons.mp hv with rfl | hv'
    · exact ⟨t, htc⟩
    · exact htm v hv'
  have hle := visitedDecr_le hnd' htm' dep
  rw [visitedDecr] at hle
  simp only [List.map_cons, List.sum_cons, htc] at hle
  have hpos : 0 < t.dependencies.count dep := List.count_pos_iff.mpr hdep
  rw [← visitedDecr] at hle
  omega


/-- Decompositions of a snoc. -/
theorem snoc_decomp {α : Type} {l pre post : List α} {en e : α}
    (h : l ++ [en] = pre ++ e :: post) :
    (pre = l ∧ e = en ∧ post = []) ∨
    (∃ post', post = post' ++ [en] ∧ l = pre ++ e :: post') := by
  rcases post.eq_nil_or_concat with rfl | ⟨post', en', rfl⟩
  · left
    have hlen : l.length = pre.length := by
      have := congrArg List.length h
      simp at this
      omega
    have h2 := List.append_inj h (by simpa using hlen)
    rcases h2 with ⟨h3, h4⟩
    injection h4 with h5 h6
    exact ⟨h3.symm, h5.symm, rfl⟩
  · right
    rw [List.concat_eq_append] at h
    rw [show pre ++ e :: (post' ++ [en']) = (pre ++ e :: post') ++ [en'] by simp] at h
    have h2 := List.append_inj h (by
      have hlen := congrArg List.length h
      simp only [List.length_append, List.length_cons, List.length_singleton,
        List.length_nil] at hlen ⊢
      omega)
    rcases h2 with ⟨h3, h4⟩
    injection h4 with h5
    subst h5
    exact ⟨post', List.concat_eq_append _ _, h3⟩


theorem BInv_step {tasks : List Task} {lf0 : String → Option DT} {s : BState}
    {id : String} {rest : List String} {t : Task} {lf : DT}
    (inv : BInv tasks lf0 s) (hq : s.queue = id :: rest)
    (hnv : id ∉ s.visited) (htm : taskMap tasks id = some t)
    (hlf : s.late_finish id = some lf) :
    BInv tasks lf0 (propagate (lf - durationSecs t) t.dependencies
      { s with
        queue := rest
        visited := id :: s.visited
        sched := s.sched ++ [(id, lf - durationSecs t, lf)] }) := by
  have htmem : t ∈ tasks := (taskMap_mem htm).1
  have hvis_tm : ∀ v ∈ s.visited, ∃ tv, taskMap tasks v = some tv := by
    intro v hv
    rw [inv.visited_eq, List.mem_reverse] at hv
    rcases List.mem_map.mp hv with ⟨e, he, rfl⟩
    rcases inv.sched_tm e he with ⟨tv, htv, _⟩
    exact ⟨tv, htv⟩
  have hvis_tm1 : ∀ v ∈ id :: s.visited, ∃ tv, taskMap tasks v = some tv := by
    intro v hv
    rcases List.mem_cons.mp hv with rfl | hv'
    · exact ⟨t, htm⟩
    · exact hvis_tm v hv'
  have hnd1 : (id :: s.visited).Nodup :=
    List.nodup_cons.mpr ⟨hnv, inv.visited_nodup⟩
  set ls : DT := lf - durationSecs t with hls
  set s1 : BState := { s with
    queue := rest
    visited := id :: s.visited
    sched := s.sched ++ [(id, ls, lf)] } with hs1
  have hc1 : s1.counts = s.counts := rfl
  have hl1 : s1.late_finish = s.late_finish := rfl
  have hbound : ∀ id' c, s1.counts id' = some c →
      t.dependencies.count id' ≤ c := by
    intro id' c hc
    rw [hc1] at hc
    have hne : dependentsMap tasks id' ≠ [] := by
      intro hnil
      rw [inv.counts_none id' hnil] at hc
      cases hc
    rcases inv.counts_some id' hne with ⟨c2, hc2, hle⟩
    rw [hc] at hc2
    injection hc2 with hc2
    subst hc2
    have hsub := visitedDecr_le hnd1 hvis_tm1 id'
    rw [visitedDecr] at hsub
    simp only [List.map_cons, List.sum_cons, htm] at hsub
    rw [← visitedDecr] at hsub
    omega
  have hvd1 : ∀ id', visitedDecr (taskMap tasks) (id :: s.visited) id' =
      t.dependencies.count id' + visitedDecr (taskMap tasks) s.visited id' := by
    intro id'
    rw [visitedDecr]
    simp only [List.map_cons, List.sum_cons, htm]
    rw [← visitedDecr]
  have hfv : (propagate ls t.dependencies s1).visited = id :: s.visited := by
    rw [propagate_visited]
  have hfs : (propagate ls t.dependencies s1).sched =
      s.sched ++ [(id, ls, lf)] := by
    rw [propagate_sched]
  have hcf := propagate_counts_formula ls t.dependencies s1 hbound
  rcases propagate_queue_suffix ls t.dependencies s1 hbound
    with ⟨pushed, hqf, hpush⟩
  have hq1 : s1.queue = rest := rfl
  -- new consumers-visited fact used in several places
  have hdep_ne_nil : ∀ dep ∈ t.dependencies, dependentsMap tasks dep ≠ [] :=
    fun dep hdep => dependentsMap_ne_nil htmem hdep
  -- a visited or queued id that is a dependency of the new task yields a
  -- contradiction (its consumers would all be visited, including id)
  have hnotdep : ∀ id', (id' ∈ s.queue ∨ id' ∈ s.visited) →
      id' ∉ t.dependencies := by
    intro id' hmem hdep
    rcases inv.queue_cond id' hmem with hsink | hcons
    · exact hdep_ne_nil id' hdep hsink
    · exact hnv (hcons id t htm hdep)
  refine
    { visited_eq := ?_
      visited_nodup := ?_
      sched_tm := ?_
      counts_none := ?_
      counts_some := ?_
      lf_seed_some := ?_
      lf_le_seed := ?_
      lf_sink := ?_
      dep_entry := ?_
      tighten := ?_
      sched_seed := ?_
      sched_sink := ?_
      queue_cond := ?_
      sched_order := ?_
      sched_prec := ?_ }
  · rw [hfv, hfs, inv.visited_eq]
    simp
  · rw [hfv]; exact hnd1
  · rw [hfs]
    intro e he
    rcases List.mem_append.mp he with he' | he'
    · exact inv.sched_tm e he'
    · rcases List.mem_singleton.mp he' with rfl
      exact ⟨t, htm, by rw [hls]; ring⟩
  · intro id' hnil
    rw [hcf id', hc1, inv.counts_none id' hnil]
  · intro id' hne
    rcases inv.counts_some id' hne with ⟨c, hc, hle⟩
    refine ⟨c - t.dependencies.count id', ?_, ?_⟩
    · rw [hcf id', hc1, hc]
    · rw [hfv, hvd1]
      have := hbound id' c (by rw [hc1]; exact hc)
      omega
  · intro id' hseed
    rw [← hl1] at *
    apply propagate_lf_isSome
    rw [hl1]
    exact inv.lf_seed_some id' hseed
  · intro id' v w hv hw
    have hsome : (s.late_finish id').isSome = true :=
      inv.lf_seed_some id' (by rw [hw]; rfl)
    rcases Option.isSome_iff_exists.mp hsome with ⟨w', hw'⟩
    have hle := propagate_lf_le_old ls t.dependencies s1 id' v w' hv
      (by rw [hl1]; exact hw')
    exact le_trans hle (inv.lf_le_seed id' w' w hw' hw)
  · intro id' hnil
    have hnd : id' ∉ t.dependencies := fun hdep => hdep_ne_nil id' hdep hnil
    rw [propagate_lf_notmem ls hnd, hl1]
    exact inv.lf_sink id' hnil
  · rw [hfs]
    intro e he t' htm' dep hdep
    rcases List.mem_append.mp he with he' | he'
    · apply propagate_lf_isSome
      rw [hl1]
      exact inv.dep_entry e he' t' htm' dep hdep
    · rcases List.mem_singleton.mp he' with rfl
      rw [htm] at htm'
      injection htm' with htm'
      subst htm'
      rcases propagate_lf_mem ls hdep s1 with ⟨v, hv, _⟩
      rw [hv]
      rfl
  · rw [hfs]
    intro e he t' htm' dep hdep w hw
    rcases List.mem_append.mp he with he' | he'
    · by_cases hdept : dep ∈ t.dependencies
      · have hsome := inv.dep_entry e he' t' htm' dep hdep
        rcases Option.isSome_iff_exists.mp hsome with ⟨w0, hw0⟩
        have h1 := propagate_lf_le_old ls t.dependencies s1 dep w w0 hw
          (by rw [hl1]; exact hw0)
        exact le_trans h1 (inv.tighten e he' t' htm' dep hdep w0 hw0)
      · rw [propagate_lf_notmem ls hdept, hl1] at hw
        exact inv.tighten e he' t' htm' dep hdep w hw
    · rcases List.mem_singleton.mp he' with rfl
      rw [htm] at htm'
      injection htm' with htm'
      subst htm'
      rcases propagate_lf_mem ls hdep s1 with ⟨v, hv, hvle⟩
      rw [hv] at hw
      injection hw with hw
      subst hw
      exact hvle
  · rw [hfs]
    intro e he w hw
    rcases List.mem_append.mp he with he' | he'
    · exact inv.sched_seed e he' w hw
    · rcases List.mem_singleton.mp he' with rfl
      exact inv.lf_le_seed id lf w hlf hw
  · rw [hfs]
    intro e he hnil
    rcases List.mem_append.mp he with he' | he'
    · exact inv.sched_sink e he' hnil
    · rcases List.mem_singleton.mp he' with rfl
      rw [← inv.lf_sink _ hnil]
      exact hlf
  · rw [hfv, hqf, hq1]
    intro id' hmem
    have hmem' : id' ∈ pushed ∨ id' ∈ rest ∨ id' ∈ id :: s.visited := by
      rcases hmem with hmem | hmem
      · rcases List.mem_append.mp hmem with h | h
        · exact Or.inl h
        · exact Or.inr (Or.inl h)
      · exact Or.inr (Or.inr hmem)
    rcases hmem' with hp | hrest | hvis
    · -- pushed: its count reached zero, so all consumers are visited
      right
      rcases hpush id' hp with ⟨hdep, hc0⟩
      have hne := hdep_ne_nil id' hdep
      rcases inv.counts_some id' hne with ⟨c, hc, hle⟩
      rw [hcf id', hc1, hc] at hc0
      injection hc0 with hc0
      intro cid t' htm' hdep'
      apply consumers_visited hnd1 hvis_tm1 _ cid t' htm' hdep'
      rw [hvd1]
      have := hbound id' c (by rw [hc1]; exact hc)
      omega
    · have := inv.queue_cond id' (Or.inl (by rw [hq]; exact List.mem_cons_of_mem _ hrest))
      rcases this with hsink | hcons
      · exact Or.inl hsink
      · exact Or.inr (fun cid t' h1 h2 => List.mem_cons_of_mem _ (hcons cid t' h1 h2))
    · rcases List.mem_cons.mp hvis with rfl | hvis'
      · have := inv.queue_cond id' (Or.inl (by rw [hq]; exact List.mem_cons_self _ _))
        rcases this with hsink | hcons
        · exact Or.inl hsink
        · exact Or.inr (fun cid t' h1 h2 => List.mem_cons_of_mem _ (hcons cid t' h1 h2))
      · have := inv.queue_cond id' (Or.inr hvis')
        rcases this with hsink | hcons
        · exact Or.inl hsink
        · exact Or.inr (fun cid t' h1 h2 => List.mem_cons_of_mem _ (hcons cid t' h1 h2))
  · rw [hfs]
    intro pre e post hdec t' htm' dep hdep e2 he2
    rcases snoc_decomp hdec with ⟨hpre, rfl, hpost⟩ | ⟨post', hpost, hold⟩
    · -- e is the new entry
      subst hpre
      rw [htm] at htm'
      injection htm' with htm'
      subst htm'
      rcases List.mem_append.mp he2 with he2' | he2'
      · -- e2 in the old schedule: its key is visited, contradiction via hnotdep
        intro heq
        subst heq
        have hkey : e2.1 ∈ s.visited := by
          rw [inv.visited_eq, List.mem_reverse]
          exact List.mem_map.mpr ⟨e2, he2', rfl⟩
        exact hnotdep e2.1 (Or.inr hkey) hdep
      · rcases List.mem_singleton.mp he2' with rfl
        intro heq
        have : id ∈ t.dependencies := by rw [← heq] at hdep; exact hdep
        exact hnotdep id (Or.inl (by rw [hq]; exact List.mem_cons_self _ _)) this
    · -- e is an old entry
      exact inv.sched_order pre e post' hold t' htm' dep hdep e2 he2
  · rw [hfs]
    intro ed hed ec hec t' htm' hdep
    rcases List.mem_append.mp hed with hed' | hed'
    · rcases List.mem_append.mp hec with hec' | hec'
      · exact inv.sched_prec ed hed' ec hec' t' htm' hdep
      · -- ec is the new entry, ed old: contradiction
        rcases List.mem_singleton.mp hec' with rfl
        rw [htm] at htm'
        injection htm' with htm'
        subst htm'
        exfalso
        have hkey : ed.1 ∈ s.visited := by
          rw [inv.visited_eq, List.mem_reverse]
          exact List.mem_map.mpr ⟨ed, hed', rfl⟩
        exact hnotdep ed.1 (Or.inr hkey) hdep
    · rcases List.mem_singleton.mp hed' with rfl
      rcases List.mem_append.mp hec with hec' | hec'
      · -- ed is the new entry, ec old: lf ≤ ec.ls by the old tighten fact
        exact inv.tighten ec hec' t' htm' id hdep lf hlf
      · rcases List.mem_singleton.mp hec' with rfl
        rw [htm] at htm'
        injection htm' with htm'
        subst htm'
        exfalso
        exact hnotdep id (Or.inl (by rw [hq]; exact List.mem_cons_self _ _)) hdep


/-- The initial backward state satisfies the invariant. -/
theorem BInv_init (tasks : List Task) (lf0 : String → Option DT) :
    BInv tasks lf0 (initBState tasks lf0) := by
  refine
    { visited_eq := rfl
      visited_nodup := List.nodup_nil
      sched_tm := by intro e he; cases he
      counts_none := ?_
      counts_some := ?_
      lf_seed_some := fun id h => h
      lf_le_seed := ?_
      lf_sink := fun id _ => rfl
      dep_entry := by intro e he; cases he
      tighten := by intro e he; cases he
      sched_seed := by intro e he; cases he
      sched_sink := by intro e he; cases he
      queue_cond := ?_
      sched_order := ?_
      sched_prec := by intro ed hed; cases hed }
  · intro id hnil
    show (match dependentsMap tasks id with
      | [] => none | l => some l.length) = none
    rw [hnil]
  · intro id hne
    rcases hdm : dependentsMap tasks id with _ | ⟨a, l⟩
    · exact absurd hdm hne
    · refine ⟨(a :: l).length, ?_, ?_⟩
      · show (match dependentsMap tasks id with
          | [] => none | l => some l.length) = some (a :: l).length
        rw [hdm]
      · simp [visitedDecr, initBState]
  · intro id v w hv hw
    have h2 : some v = some w := hv.symm.trans hw
    injection h2 with h2
    exact le_of_eq h2
  · intro id hmem
    left
    rcases hmem with hmem | hmem
    · rw [show (initBState tasks lf0).queue =
        ((tasks.filter (fun t => (dependentsMap tasks t.id).isEmpty)).map
          (fun t => t.id)).reverse from rfl, List.mem_reverse] at hmem
      rcases List.mem_map.mp hmem with ⟨t, ht, rfl⟩
      have := (List.mem_filter.mp ht).2
      exact List.isEmpty_iff.mp (by simpa using this)
    · cases hmem
  · intro pre e post hdec
    exfalso
    have : e ∈ ([] : List (String × DT × DT)) := by
      rw [show ((initBState tasks lf0).sched : List (String × DT × DT)) = [] from rfl] at hdec
      rw [hdec]
      exact List.mem_append.mpr (Or.inr (List.mem_cons_self _ _))
    cases this

/-- The backward loop preserves the invariant on the `done` outcome. -/
theorem backLoop_inv (tasks : List Task) (lf0 : String → Option DT)
    (fuel : Nat) (s : BState) (inv : BInv tasks lf0 s) :
    ∀ s', backLoop (taskMap tasks) fuel s = .done s' → BInv tasks lf0 s' := by
  induction fuel generalizing s with
  | zero =>
    intro s' h
    rw [backLoop] at h
    injection h with h
    subst h
    exact inv
  | succ fuel ih =>
    intro s' h
    rw [backLoop] at h
    rcases hq : s.queue with _ | ⟨task_id, rest⟩
    · rw [hq] at h
      dsimp only at h
      injection h with h
      subst h
      exact inv
    · rw [hq] at h
      dsimp only at h
      by_cases hv : s.visited.contains task_id
      · rw [if_pos hv] at h
        refine ih { s with queue := rest } ?_ s' h
        have hvm : task_id ∈ s.visited := by
          simpa using hv
        exact
          { visited_eq := inv.visited_eq
            visited_nodup := inv.visited_nodup
            sched_tm := inv.sched_tm
            counts_none := inv.counts_none
            counts_some := inv.counts_some
            lf_seed_some := inv.lf_seed_some
            lf_le_seed := inv.lf_le_seed
            lf_sink := inv.lf_sink
            dep_entry := inv.dep_entry
            tighten := inv.tighten
            sched_seed := inv.sched_seed
            sched_sink := inv.sched_sink
            queue_cond := by
              intro id hmem
              refine inv.queue_cond id ?_
              rcases hmem with hmem | hmem
              · exact Or.inl (by rw [hq]; exact List.mem_cons_of_mem _ hmem)
              · exact Or.inr hmem
            sched_order := inv.sched_order
            sched_prec := inv.sched_prec }
      · rw [if_neg hv] at h
        rcases htm : taskMap tasks task_id with _ | t
        · rw [htm] at h
          dsimp only at h
          cases h
        · rw [htm] at h
          dsimp only at h
          rcases hlf : s.late_finish task_id with _ | lf
          · rw [hlf] at h
            dsimp only at h
            cases h
          · rw [hlf] at h
            dsimp only at h
            refine ih _ ?_ s' h
            have hnv : task_id ∉ s.visited := by
              intro hmem
              exact hv (by simpa using hmem)
            exact BInv_step inv hq hnv htm hlf


/-- Decomposition of a successful run: the seed map, the final backward
state with its invariant, the passed completeness check, the project start,
and the assembled output. -/
theorem calculate_ok_parts {req : ScheduleRequest} {out : List ScheduledTask}
    (hne : req.tasks ≠ [])
    (h : calculate_backwards_schedule req = .ok out) :
    ∃ lf0 fin ps,
      seedAnchors (taskMap req.tasks) req.anchors (fun _ => none) = .ok lf0 ∧
      backLoop (taskMap req.tasks) (fuelBound req.tasks)
        (initBState req.tasks lf0) = .done fin ∧
      BInv req.tasks lf0 fin ∧
      ¬(fin.sched.length ≠ req.tasks.length ∧
        missingNames req.tasks fin.sched ≠ []) ∧
      projectStart fin.sched = some ps ∧
      out = assemble req.tasks fin.sched (runForward req.tasks ps) := by
  rw [calculate_backwards_schedule, if_neg hne] at h
  rcases hbr : backResult req with e | fin
  · rw [hbr] at h; cases h
  rw [hbr] at h
  dsimp only at h
  rw [backResult] at hbr
  rcases hbo : backOutcome req with e | oc
  · rw [hbo] at hbr; cases hbr
  rw [hbo] at hbr
  rw [backOutcome] at hbo
  rcases hseed : seedAnchors (taskMap req.tasks) req.anchors (fun _ => none)
    with e | lf0
  · rw [hseed] at hbo; cases hbo
  rw [hseed] at hbo
  dsimp only at hbo
  injection hbo with hbo
  rcases oc with s | ⟨tid, s⟩ | ⟨t, s⟩
  · dsimp only at hbr
    injection hbr with hbr
    subst hbr
    by_cases hchk : s.sched.length ≠ req.tasks.length ∧
        missingNames req.tasks s.sched ≠ []
    · rw [if_pos hchk] at h; cases h
    · rw [if_neg hchk] at h
      rcases hps : projectStart s.sched with _ | ps
      · rw [hps] at h; dsimp only at h; cases h
      · rw [hps] at h
        dsimp only at h
        injection h with h
        exact ⟨lf0, s, ps, rfl, hbo, backLoop_inv _ _ _ _ (BInv_init _ _) s hbo,
          hchk, hps, h.symm⟩
  · dsimp only at hbr; cases hbr
  · dsimp only at hbr; cases hbr

/-- A schedule lookup hit is a schedule entry. -/
theorem schedLookup_mem {sched : List (String × DT × DT)} {id : String}
    {p : DT × DT} (h : schedLookup sched id = some p) :
    (id, p) ∈ sched := by
  rw [schedLookup] at h
  rcases hf : sched.find? (fun e => e.1 == id) with _ | e
  · rw [hf] at h; cases h
  · rw [hf] at h
    injection h with h
    have hmem := List.mem_of_find?_eq_some hf
    have hpred := List.find?_some hf
    have hid : e.1 = id := by simpa using hpred
    rcases e with ⟨k, q⟩
    dsimp only at h hid
    rw [← h, ← hid]
    exact hmem

/-- When the completeness check passes, every request task has a backward
entry. -/
theorem sched_covered {tasks : List Task} {lf0 : String → Option DT}
    {fin : BState} (inv : BInv tasks lf0 fin)
    (hok : ¬(fin.sched.length ≠ tasks.length ∧
      missingNames tasks fin.sched ≠ [])) :
    ∀ t ∈ tasks, ∃ p, schedLookup fin.sched t.id = some p := by
  intro t ht
  have hfind : ∀ t ∈ tasks, fin.sched.any (fun e => e.1 == t.id) = true →
      ∃ p, schedLookup fin.sched t.id = some p := by
    intro t _ hany
    rcases List.any_eq_true.mp hany with ⟨e, he, hpe⟩
    have : (fin.sched.find? (fun e => e.1 == t.id)).isSome = true :=
      List.find?_isSome.mpr ⟨e, he, hpe⟩
    rcases Option.isSome_iff_exists.mp this with ⟨e', he'⟩
    exact ⟨e'.2, by rw [schedLookup, he']; rfl⟩
  by_cases hmiss : missingNames tasks fin.sched = []
  · rw [missingNames, List.map_eq_nil, List.filter_eq_nil_iff] at hmiss
    have := hmiss t ht
    simp only [Bool.not_eq_true', Bool.not_eq_false] at this
    exact hfind t ht this
  · have hlen : fin.sched.length = tasks.length := by
      by_contra hne
      exact hok ⟨hne, hmiss⟩
    -- pigeonhole: distinct schedule keys inside the task-id list
    have hkeysnd : (fin.sched.map (fun e => e.1)).Nodup := by
      have := inv.visited_nodup
      rw [inv.visited_eq] at this
      exact List.nodup_reverse.mp this
    have hsub : (fin.sched.map (fun e => e.1)).toFinset ⊆
        (tasks.map (fun t => t.id)).toFinset := by
      intro k hk
      rw [List.mem_toFinset] at hk ⊢
      rcases List.mem_map.mp hk with ⟨e, he, rfl⟩
      rcases inv.sched_tm e he with ⟨t', ht', _⟩
      rcases taskMap_mem ht' with ⟨htmem, hid⟩
      exact List.mem_map.mpr ⟨t', htmem, hid⟩
    have hcard : (tasks.map (fun t => t.id)).toFinset.card ≤
        (fin.sched.map (fun e => e.1)).toFinset.card := by
      have h1 : (tasks.map (fun t => t.id)).toFinset.card ≤
          (tasks.map (fun t => t.id)).length := (tasks.map (fun t => t.id)).toFinset_card_le
      have h2 : (fin.sched.map (fun e => e.1)).toFinset.card =
          (fin.sched.map (fun e => e.1)).length := List.toFinset_card_of_nodup hkeysnd
      simp only [List.length_map] at h1 h2
      omega
    have heq := Finset.eq_of_subset_of_card_le hsub hcard
    have hidk : t.id ∈ (fin.sched.map (fun e => e.1)).toFinset := by
      rw [heq, List.mem_toFinset]
      exact List.mem_map.mpr ⟨t, ht, rfl⟩
    rw [List.mem_toFinset] at hidk
    rcases List.mem_map.mp hidk with ⟨e, he, hek⟩
    apply hfind t ht
    exact List.any_eq_true.mpr ⟨e, he, by simpa using hek⟩


/-! ## Forward-pass safety: computed early dates never exceed the late dates -/

/-- `forwardPropagate` leaves the early-start map unchanged. -/
theorem fp_es (cs : List String) (s : FState) :
    (forwardPropagate cs s).early_start = s.early_start := by
  induction cs generalizing s with
  | nil => rfl
  | cons c cs ih =>
    have h1 : forwardPropagate (c :: cs) s =
        forwardPropagate cs (match s.in_degree c with
          | none => s
          | some d =>
            let d' := decWrap d
            { s with
              in_degree := upd s.in_degree c d'
              queue := if d' = 0 then c :: s.queue else s.queue }) := rfl
    rw [h1, ih]
    rcases s.in_degree c with _ | d <;> rfl

/-- `forwardPropagate` leaves the early-finish map unchanged. -/
theorem fp_ef (cs : List String) (s : FState) :
    (forwardPropagate cs s).early_finish = s.early_finish := by
  induction cs generalizing s with
  | nil => rfl
  | cons c cs ih =>
    have h1 : forwardPropagate (c :: cs) s =
        forwardPropagate cs (match s.in_degree c with
          | none => s
          | some d =>
            let d' := decWrap d
            { s with
              in_degree := upd s.in_degree c d'
              queue := if d' = 0 then c :: s.queue else s.queue }) := rfl
    rw [h1, ih]
    rcases s.in_degree c with _ | d <;> rfl


/-- The early-start fold stays below any bound dominating the seed and the
candidate early finishes. -/
theorem earlyStartOfTask_le (ef : String → Option DT) (ps : DT) (t : Task)
    (B : DT) (hps : ps ≤ B)
    (hdeps : ∀ dep ∈ t.dependencies, ∀ v, ef dep = some v → v ≤ B) :
    earlyStartOfTask ef ps t ≤ B := by
  rw [earlyStartOfTask]
  have main : ∀ (l : List String) (acc : DT), acc ≤ B →
      (∀ dep ∈ l, ∀ v, ef dep = some v → v ≤ B) →
      l.foldl (fun maxEf dep =>
        match ef dep with
        | some v => if maxEf < v then v else maxEf
        | none => maxEf) acc ≤ B := by
    intro l
    induction l with
    | nil => intro acc h _; exact h
    | cons d l ih =>
      intro acc hacc hds
      rw [List.foldl_cons]
      apply ih
      · rcases hd : ef d with _ | v
        · exact hacc
        · dsimp only
          have := hds d (List.mem_cons_self _ _) v hd
          split <;> [exact this; exact hacc]
      · intro dep hdep v hv
        exact hds dep (List.mem_cons_of_mem _ hdep) v hv
  by_cases hnil : t.dependencies.isEmpty
  · rw [if_pos hnil]; exact hps
  · rw [if_neg hnil]
    exact main t.dependencies ps hps hdeps

/-- The early-start fold dominates every known candidate early finish. -/
theorem earlyStartOfTask_ge (ef : String → Option DT) (ps : DT) (t : Task)
    (dep : String) (hdep : dep ∈ t.dependencies) (v : DT)
    (hv : ef dep = some v) : v ≤ earlyStartOfTask ef ps t := by
  rw [earlyStartOfTask]
  have hne : t.dependencies.isEmpty = false := by
    rcases hdl : t.dependencies with _ | ⟨a, l⟩
    · rw [hdl] at hdep; cases hdep
    · rfl
  rw [hne]
  simp only [Bool.false_eq_true, if_false]
  have main : ∀ (l : List String) (acc : DT), dep ∈ l →
      v ≤ l.foldl (fun maxEf dep =>
        match ef dep with
        | some v => if maxEf < v then v else maxEf
        | none => maxEf) acc := by
    intro l
    induction l with
    | nil => intro acc h; cases h
    | cons d l ih =>
      intro acc h
      rcases List.mem_cons.mp h with rfl | h'
      · rw [List.foldl_cons]
        have hacc : v ≤ (match ef dep with
            | some w => if acc < w then w else acc
            | none => acc) := by
          rw [hv]
          dsimp only
          split
          · exact le_refl v
          · linarith
        have mono : ∀ (l : List String) (a b : DT), a ≤ b →
            a ≤ l.foldl (fun maxEf dep =>
              match ef dep with
              | some v => if maxEf < v then v else maxEf
              | none => maxEf) b := by
          intro l
          induction l with
          | nil => intro a b h; exact h
          | cons e l ihm =>
            intro a b h
            rw [List.foldl_cons]
            apply ihm
            rcases he : ef e with _ | w
            · exact h
            · dsimp only
              split <;> linarith
        exact mono l v _ hacc
      · rw [List.foldl_cons]
        exact ih _ h'
  exact main t.dependencies ps hdep

/-- One forward-loop step preserves the safety invariant. -/
theorem FLite_step {tasks : List Task} {lf0 : String → Option DT}
    {fin : BState} (inv : BInv tasks lf0 fin)
    (hcov : ∀ x t, taskMap tasks x = some t →
      ∃ p, schedLookup fin.sched x = some p)
    {ps : DT} (hps : projectStart fin.sched = some ps)
    {fs : FState} (fl : FLite tasks fin.sched fs)
    {x : String} {t : Task} (htm : taskMap tasks x = some t) {rest : List String} :
    FLite tasks fin.sched (forwardPropagate (dependentsMap tasks x)
      { fs with
        queue := rest
        early_start := upd fs.early_start x (earlyStartOfTask fs.early_finish ps t)
        early_finish := upd fs.early_finish x
          (earlyStartOfTask fs.early_finish ps t + durationSecs t) }) := by
  rcases hcov x t htm with ⟨p, hp⟩
  have hpmem := schedLookup_mem hp
  -- the newly computed early start is within the late start
  have hesle : earlyStartOfTask fs.early_finish ps t ≤ p.1 := by
    apply earlyStartOfTask_le
    · -- project start is the minimum late start
      rw [projectStart] at hps
      exact (List.le_min?_iff (fun a b c => le_min_iff) hps).mp (le_refl ps)
        p.1 (List.mem_map.mpr ⟨(x, p), hpmem, rfl⟩)
    · intro dep hdep v hv
      rcases fl.ef_pair dep v hv with ⟨tdep, esdep, htdep, hesdep, rfl⟩
      rcases fl.es_dom dep esdep hesdep with ⟨pdep, hpdep, hesle⟩
      have hdmem := schedLookup_mem hpdep
      rcases inv.sched_tm (dep, pdep) hdmem with ⟨t', ht', hdur⟩
      rw [htdep] at ht'
      injection ht' with ht'
      subst ht'
      have hprec := inv.sched_prec (dep, pdep) hdmem (x, p) hpmem t htm hdep
      dsimp only at hprec hdur
      linarith
  constructor
  · intro y es hy
    rw [fp_es] at hy
    dsimp only at hy
    by_cases hxy : y = x
    · subst hxy
      rw [upd_eq] at hy
      injection hy with hy
      exact ⟨p, hp, by rw [← hy]; exact hesle⟩
    · rw [upd_ne _ _ hxy] at hy
      exact fl.es_dom y es hy
  · intro y ef hy
    rw [fp_ef] at hy
    rw [fp_es]
    dsimp only at hy ⊢
    by_cases hxy : y = x
    · subst hxy
      rw [upd_eq] at hy
      injection hy with hy
      exact ⟨t, earlyStartOfTask fs.early_finish ps t, htm, upd_eq _ _ _, hy.symm⟩
    · rw [upd_ne _ _ hxy] at hy
      rcases fl.ef_pair y ef hy with ⟨t', es', ht', hes', hef⟩
      exact ⟨t', es', ht', by
        rw [upd_ne _ _ hxy]; exact hes', hef⟩

/-- The forward loop preserves the safety invariant. -/
theorem forwardLoop_flite {tasks : List Task} {lf0 : String → Option DT}
    {fin : BState} (inv : BInv tasks lf0 fin)
    (hcov : ∀ x t, taskMap tasks x = some t →
      ∃ p, schedLookup fin.sched x = some p)
    {ps : DT} (hps : projectStart fin.sched = some ps)
    (fuel : Nat) (fs : FState) (fl : FLite tasks fin.sched fs) :
    FLite tasks fin.sched
      (forwardLoop (taskMap tasks) (dependentsMap tasks) ps fuel fs) := by
  induction fuel generalizing fs with
  | zero => rw [forwardLoop]; exact fl
  | succ fuel ih =>
    rw [forwardLoop]
    rcases hq : fs.queue with _ | ⟨x, rest⟩
    · exact fl
    · dsimp only
      rcases htm : taskMap tasks x with _ | t
      · dsimp only
        exact ih { fs with queue := rest } ⟨fl.es_dom, fl.ef_pair⟩
      · dsimp only
        exact ih _ (FLite_step inv hcov hps fl htm)


/-! ## Assembly facts -/

/-- A `filterMap` whose function hits on every element is pointwise related
to its input. -/
theorem filterMap_forall2 {α β : Type} (f : α → Option β) (R : α → β → Prop)
    (l : List α) (h : ∀ x ∈ l, ∃ y, f x = some y ∧ R x y) :
    List.Forall₂ R l (l.filterMap f) := by
  induction l with
  | nil => exact List.Forall₂.nil
  | cons a l ih =>
    rcases h a (List.mem_cons_self _ _) with ⟨y, hy, hR⟩
    rw [List.filterMap_cons, hy]
    exact List.Forall₂.cons hR (ih (fun x hx => h x (List.mem_cons_of_mem _ hx)))

/-- Unfolding one assembled row. -/
theorem assemble_mem {tasks : List Task} {sched : List (String × DT × DT)}
    {fs : FState} {r : ScheduledTask} (h : r ∈ assemble tasks sched fs) :
    ∃ t ∈ tasks, ∃ p, schedLookup sched t.id = some p ∧
      r = { id := t.id
            name := t.name
            start_date := formatDT p.1
            end_date := formatDT p.2
            completed := t.completed
            notes := t.notes
            is_critical := decide (Int.tdiv (p.1 - (fs.early_start t.id).getD p.1) 60 ≤ 0)
            slack_minutes := Int.tdiv (p.1 - (fs.early_start t.id).getD p.1) 60
            is_milestone := t.is_milestone } := by
  rw [assemble] at h
  rcases List.mem_filterMap.mp h with ⟨t, ht, hf⟩
  rcases hl : schedLookup sched t.id with _ | p
  · rw [hl] at hf; cases hf
  · rw [hl] at hf
    injection hf with hf
    exact ⟨t, ht, p, hl, hf.symm⟩

/-- The initial forward state satisfies the safety invariant. -/
theorem FLite_init (tasks : List Task) (sched : List (String × DT × DT)) :
    FLite tasks sched (initFState tasks) := by
  constructor
  · intro x es hx; cases hx
  · intro x ef hx; cases hx

/-- The output early start (with its late-start fallback) never exceeds the
late start. -/
theorem out_es_le {tasks : List Task} {lf0 : String → Option DT}
    {fin : BState} (inv : BInv tasks lf0 fin)
    (hchk : ¬(fin.sched.length ≠ tasks.length ∧
      missingNames tasks fin.sched ≠ []))
    {ps : DT} (hps : projectStart fin.sched = some ps)
    {x : String} {p : DT × DT} (hp : schedLookup fin.sched x = some p) :
    ((runForward tasks ps).early_start x).getD p.1 ≤ p.1 := by
  have hcov : ∀ y t, taskMap tasks y = some t →
      ∃ q, schedLookup fin.sched y = some q := by
    intro y t hy
    rcases taskMap_mem hy with ⟨htmem, hid⟩
    rcases sched_covered inv hchk t htmem with ⟨q, hq⟩
    rw [hid] at hq
    exact ⟨q, hq⟩
  have fl : FLite tasks fin.sched (runForward tasks ps) := by
    rw [runForward]
    exact forwardLoop_flite inv hcov hps _ _ (FLite_init _ _)
  rcases hes : (runForward tasks ps).early_start x with _ | es
  · exact le_refl p.1
  · rcases fl.es_dom x es hes with ⟨p', hp', hle⟩
    rw [hp] at hp'
    injection hp' with hp'
    subst hp'
    exact hle


/-- A successful run determines the backward phase. -/
theorem calculate_ok_backResult {req : ScheduleRequest} {lf0 : String → Option DT}
    {fin : BState}
    (hseed : seedAnchors (taskMap req.tasks) req.anchors (fun _ => none) = .ok lf0)
    (hloop : backLoop (taskMap req.tasks) (fuelBound req.tasks)
      (initBState req.tasks lf0) = .done fin) :
    backResult req = .ok fin := by
  rw [backResult, backOutcome, hseed]
  dsimp only
  rw [hloop]

/-- C4 — Slack and criticality: on every successful run, each output row's
`slack_minutes` is exactly the whole-minute truncation of its backward late
start minus the forward pass's early start for its id (falling back to the
late start when the forward pass computed none, scheduler.rs:296-300); that
effective early start never exceeds the late start, so the slack is
nonnegative, and `is_critical` holds iff `slack_minutes ≤ 0`, hence iff
`slack_minutes = 0`. -/
theorem c4_slack_and_criticality {req : ScheduleRequest}
    {out : List ScheduledTask}
    (h : calculate_backwards_schedule req = .ok out) :
    ∀ r ∈ out, 0 ≤ r.slack_minutes ∧
      (r.is_critical = true ↔ r.slack_minutes ≤ 0) ∧
      (r.is_critical = true ↔ r.slack_minutes = 0) ∧
      ∃ (fin : BState) (ps : DT), backResult req = .ok fin ∧
        projectStart fin.sched = some ps ∧
        ∃ p : DT × DT, schedLookup fin.sched r.id = some p ∧
          r.start_date = formatDT p.1 ∧ r.end_date = formatDT p.2 ∧
          ((runForward req.tasks ps).early_start r.id).getD p.1 ≤ p.1 ∧
          r.slack_minutes = Int.tdiv
            (p.1 - ((runForward req.tasks ps).early_start r.id).getD p.1) 60 := by
  by_cases hT : req.tasks = []
  · rw [calculate_backwards_schedule, if_pos hT] at h
    injection h with h
    subst h
    intro r hr
    cases hr
  · rcases calculate_ok_parts hT h with
      ⟨lf0, fin, ps, hseed, hloop, inv, hchk, hps, hout⟩
    intro r hr
    rw [hout] at hr
    rcases assemble_mem hr with ⟨t, ht, p, hp, rfl⟩
    have hesle := out_es_le inv hchk hps hp
    have hnn : 0 ≤ Int.tdiv (p.1 -
        ((runForward req.tasks ps).early_start t.id).getD p.1) 60 :=
      Int.tdiv_nonneg (by linarith) (by norm_num)
    refine ⟨hnn, ?_, ?_, fin, ps, calculate_ok_backResult hseed hloop, hps,
      p, hp, rfl, rfl, hesle, rfl⟩
    · exact decide_eq_true_iff
    · constructor
      · intro hd
        exact le_antisymm (decide_eq_true_iff.mp hd) hnn
      · intro he
        exact decide_eq_true_iff.mpr (le_of_eq he)

theorem c4_witness :
    0 ≤ c4row.slack_minutes ∧
    (c4row.is_critical = true ↔ c4row.slack_minutes ≤ 0) ∧
    (c4row.is_critical = true ↔ c4row.slack_minutes = 0) ∧
    ∃ (fin : BState) (ps : DT),
      backResult ⟨[mkTask "a" "Task A" 1 none []], [("a", "2026-01-10")]⟩ =
        .ok fin ∧
      projectStart fin.sched = some ps ∧
      ∃ p : DT × DT, schedLookup fin.sched c4row.id = some p ∧
        c4row.start_date = formatDT p.1 ∧ c4row.end_date = formatDT p.2 ∧
        ((runForward [mkTask "a" "Task A" 1 none []] ps).early_start
          c4row.id).getD p.1 ≤ p.1 ∧
        c4row.slack_minutes = Int.tdiv
          (p.1 - ((runForward [mkTask "a" "Task A" 1 none []] ps).early_start
            c4row.id).getD p.1) 60 :=
  @c4_slack_and_criticality
    ⟨[mkTask "a" "Task A" 1 none []], [("a", "2026-01-10")]⟩
    [c4row] (by decide) c4row (List.mem_singleton.mpr rfl)

/-- A successful backward phase satisfies the invariant. -/
theorem backResult_ok_inv {req : ScheduleRequest} {fin : BState}
    (h : backResult req = .ok fin) :
    ∃ lf0, seedAnchors (taskMap req.tasks) req.anchors (fun _ => none) = .ok lf0 ∧
      BInv req.tasks lf0 fin := by
  rw [backResult] at h
  rcases hbo : backOutcome req with e | oc
  · rw [hbo] at h; cases h
  rw [hbo] at h
  rw [backOutcome] at hbo
  rcases hseed : seedAnchors (taskMap req.tasks) req.anchors (fun _ => none)
    with e | lf0
  · rw [hseed] at hbo; cases hbo
  rw [hseed] at hbo
  dsimp only at hbo
  injection hbo with hbo
  rcases oc with s | ⟨tid, s⟩ | ⟨t, s⟩
  · dsimp only at h
    injection h with h
    subst h
    exact ⟨lf0, rfl, backLoop_inv _ _ _ _ (BInv_init _ _) _ hbo⟩
  · dsimp only at h; cases h
  · dsimp only at h; cases h

/-- An uncovered task makes the backward schedule strictly shorter than the
task list. -/
theorem missing_length_ne {tasks : List Task} {lf0 : String → Option DT}
    {fin : BState} (inv : BInv tasks lf0 fin)
    (hmiss : missingNames tasks fin.sched ≠ []) :
    fin.sched.length ≠ tasks.length := by
  rcases hm : missingNames tasks fin.sched with _ | ⟨n, ns⟩
  · exact absurd hm hmiss
  have hx : ∃ t ∈ tasks, t.id ∉ fin.sched.map (fun e => e.1) := by
    rw [missingNames] at hm
    rcases hf : tasks.filter (fun t => !(fin.sched.any (fun e => e.1 == t.id)))
      with _ | ⟨t, ts⟩
    · rw [hf] at hm; cases hm
    · have htmem := List.mem_of_mem_filter (hf ▸ List.mem_cons_self t ts)
      have hpred := List.of_mem_filter (hf ▸ List.mem_cons_self t ts)
      refine ⟨t, htmem, ?_⟩
      intro hk
      rcases List.mem_map.mp hk with ⟨e, he, hek⟩
      have hany : fin.sched.any (fun e => e.1 == t.id) = true :=
        List.any_eq_true.mpr ⟨e, he, by simpa using hek⟩
      rw [hany] at hpred
      exact Bool.noConfusion hpred
  rcases hx with ⟨t, ht, hnot⟩
  have hkeysnd : (fin.sched.map (fun e => e.1)).Nodup := by
    have := inv.visited_nodup
    rw [inv.visited_eq] at this
    exact List.nodup_reverse.mp this
  have hsub : (fin.sched.map (fun e => e.1)).toFinset ⊆
      (tasks.map (fun t => t.id)).toFinset := by
    intro k hk
    rw [List.mem_toFinset] at hk ⊢
    rcases List.mem_map.mp hk with ⟨e, he, rfl⟩
    rcases inv.sched_tm e he with ⟨t', ht', _⟩
    rcases taskMap_mem ht' with ⟨htmem, hid⟩
    exact List.mem_map.mpr ⟨t', htmem, hid⟩
  have hnot2 : t.id ∉ (fin.sched.map (fun e => e.1)).toFinset := by
    rw [List.mem_toFinset]
    exact hnot
  have hssub : (fin.sched.map (fun e => e.1)).toFinset ⊂
      (tasks.map (fun t => t.id)).toFinset := by
    refine ⟨hsub, ?_⟩
    intro hsup
    exact hnot2 (hsup (List.mem_toFinset.mpr (List.mem_map.mpr ⟨t, ht, rfl⟩)))
  have hlt := Finset.card_lt_card hssub
  have h1 : (fin.sched.map (fun e => e.1)).toFinset.card =
      fin.sched.length := by
    rw [List.toFinset_card_of_nodup hkeysnd, List.length_map]
  have h2 : (tasks.map (fun t => t.id)).toFinset.card ≤ tasks.length := by
    have := (tasks.map (fun t => t.id)).toFinset_card_le
    rw [List.length_map] at this
    exact this
  omega


/-- C5 — Disconnected subgraphs are a hard error with no partial results:
whenever the backward pass leaves some request task without a backward
entry, `calculate_backwards_schedule` returns the aggregate
`NoEndDateComputed` error naming the unreached tasks; every successful run
schedules every request task (no partial lists); and the S4 example (A(5d),
B(3d, deps=[A]), anchor only on A) fails naming `Task B`. -/
theorem c5_disconnected_hard_error :
    (∀ (req : ScheduleRequest) (fin : BState), req.tasks ≠ [] →
      backResult req = .ok fin →
      missingNames req.tasks fin.sched ≠ [] →
      calculate_backwards_schedule req =
        .error (.NoEndDateComputed (missingMsg (missingNames req.tasks fin.sched)))) ∧
    (∀ (req : ScheduleRequest) (t : Task) (s : BState), req.tasks ≠ [] →
      backOutcome req = .ok (.noLf t s) →
      calculate_backwards_schedule req = .error (.NoEndDateComputed t.name)) ∧
    (∀ (req : ScheduleRequest) (out : List ScheduledTask),
      calculate_backwards_schedule req = .ok out →
      ∀ t ∈ req.tasks, ∃ r ∈ out, r.id = t.id ∧ r.name = t.name) ∧
    calculate_backwards_schedule
      ⟨[mkTask "a" "Task A" 5 none [], mkTask "b" "Task B" 3 none ["a"]],
        [("a", "2026-01-15")]⟩ =
      .error (.NoEndDateComputed "Task B") := by
  refine ⟨?_, ?_, ?_, by decide⟩
  · intro req fin hne hbr hmiss
    rcases backResult_ok_inv hbr with ⟨lf0, _, inv⟩
    rw [calculate_backwards_schedule, if_neg hne, hbr]
    dsimp only
    rw [if_pos ⟨missing_length_ne inv hmiss, hmiss⟩]
  · intro req t s hne hbo
    rw [calculate_backwards_schedule, if_neg hne]
    rw [show backResult req = .error (.NoEndDateComputed t.name) by
      rw [backResult, hbo]]
  · intro req out h t ht
    by_cases hT : req.tasks = []
    · rw [hT] at ht; cases ht
    · rcases calculate_ok_parts hT h with
        ⟨lf0, fin, ps, hseed, hloop, inv, hchk, hps, hout⟩
      rcases sched_covered inv hchk t ht with ⟨p, hp⟩
      have hmem : ({ id := t.id
                     name := t.name
                     start_date := formatDT p.1
                     end_date := formatDT p.2
                     completed := t.completed
                     notes := t.notes
                     is_critical := decide (Int.tdiv (p.1 -
                       ((runForward req.tasks ps).early_start t.id).getD p.1) 60 ≤ 0)
                     slack_minutes := Int.tdiv (p.1 -
                       ((runForward req.tasks ps).early_start t.id).getD p.1) 60
                     is_milestone := t.is_milestone } : ScheduledTask) ∈ out := by
        rw [hout, assemble]
        exact List.mem_filterMap.mpr ⟨t, ht, by rw [hp]; rfl⟩
      exact ⟨_, hmem, rfl, rfl⟩

theorem c5_witness :
    ∃ r ∈ [({ id := "a", name := "Task A", start_date := "2026-01-08T00:00:00"
              end_date := "2026-01-09T00:00:00", completed := false, notes := none
              is_critical := true, slack_minutes := 0, is_milestone := false } : ScheduledTask),
            { id := "b", name := "Task B", start_date := "2026-01-09T00:00:00"
              end_date := "2026-01-10T00:00:00", completed := false, notes := none
              is_critical := true, slack_minutes := 0, is_milestone := false }],
      r.id = "a" ∧ r.name = "Task A" :=
  c5_disconnected_hard_error.2.2.1
    ⟨[mkTask "a" "Task A" 1 none [], mkTask "b" "Task B" 1 none ["a"]],
      [("b", "2026-01-10T00:00:00")]⟩ _ (by decide)
    (mkTask "a" "Task A" 1 none []) (by decide)


/-- C8 counterexample — the output drops `subtasks`: two requests that
differ only in a task's subtasks produce identical successful outputs, so
no output element can carry the input's subtasks. -/
theorem c8_counterexample :
    (calculate_backwards_schedule
      ⟨[{ id := "a", name := "Task A", duration_days := 1
          duration_minutes := none, dependencies := [], completed := false
          notes := none, is_milestone := false
          subtasks := [{ id := "s1", name := "Sub 1", completed := true }] }],
        [("a", "2026-01-10")]⟩ =
    calculate_backwards_schedule
      ⟨[{ id := "a", name := "Task A", duration_days := 1
          duration_minutes := none, dependencies := [], completed := false
          notes := none, is_milestone := false, subtasks := [] }],
        [("a", "2026-01-10")]⟩) ∧
    (∃ out, calculate_backwards_schedule
      ⟨[{ id := "a", name := "Task A", duration_days := 1
          duration_minutes := none, dependencies := [], completed := false
          notes := none, is_milestone := false
          subtasks := [{ id := "s1", name := "Sub 1", completed := true }] }],
        [("a", "2026-01-10")]⟩ = .ok out) ∧
    ({ id := "a", name := "Task A", duration_days := 1
       duration_minutes := none, dependencies := [], completed := false
       notes := none, is_milestone := false
       subtasks := [{ id := "s1", name := "Sub 1", completed := true }] } : Task) ≠
    { id := "a", name := "Task A", duration_days := 1
      duration_minutes := none, dependencies := [], completed := false
      notes := none, is_milestone := false, subtasks := [] } := by
  refine ⟨by decide, ⟨[{ id := "a", name := "Task A"
                         start_date := "2026-01-09T23:59:59"
                         end_date := "2026-01-10T23:59:59"
                         completed := false, notes := none, is_critical := true
                         slack_minutes := 0, is_milestone := false }],
    by decide⟩, by decide⟩

/-- C8 amended — Assembler output shape: on success the output has the same
length and order as `request.tasks`, and each row carries its task's
`completed`, `notes` and `is_milestone` unchanged (`subtasks` is dropped:
`ScheduledTask` has no such field). -/
theorem c8_amended_output_shape {req : ScheduleRequest}
    {out : List ScheduledTask}
    (h : calculate_backwards_schedule req = .ok out) :
    List.Forall₂ (fun (t : Task) (r : ScheduledTask) =>
      r.id = t.id ∧ r.name = t.name ∧ r.completed = t.completed ∧
      r.notes = t.notes ∧ r.is_milestone = t.is_milestone) req.tasks out := by
  by_cases hT : req.tasks = []
  · rw [calculate_backwards_schedule, if_pos hT] at h
    injection h with h
    subst h
    rw [hT]
    exact List.Forall₂.nil
  · rcases calculate_ok_parts hT h with
      ⟨lf0, fin, ps, hseed, hloop, inv, hchk, hps, hout⟩
    rw [hout, assemble]
    apply filterMap_forall2
    intro t ht
    rcases sched_covered inv hchk t ht with ⟨p, hp⟩
    refine ⟨_, by rw [hp]; rfl, rfl, rfl, rfl, rfl, rfl⟩

theorem c8_witness :
    List.Forall₂ (fun (t : Task) (r : ScheduledTask) =>
      r.id = t.id ∧ r.name = t.name ∧ r.completed = t.completed ∧
      r.notes = t.notes ∧ r.is_milestone = t.is_milestone)
      [{ id := "m", name := "Milestone", duration_days := 0
         duration_minutes := some 30, dependencies := [], completed := true
         notes := some "note", is_milestone := true, subtasks := [] }]
      [{ id := "m", name := "Milestone", start_date := "2026-01-10T23:29:59"
         end_date := "2026-01-10T23:59:59", completed := true
         notes := some "note", is_critical := true, slack_minutes := 0
         is_milestone := true }] :=
  @c8_amended_output_shape
    ⟨[{ id := "m", name := "Milestone", duration_days := 0
        duration_minutes := some 30, dependencies := [], completed := true
        notes := some "note", is_milestone := true, subtasks := [] }],
      [("m", "2026-01-10")]⟩
    [{ id := "m", name := "Milestone", start_date := "2026-01-10T23:29:59"
       end_date := "2026-01-10T23:59:59", completed := true
       notes := some "note", is_critical := true, slack_minutes := 0
       is_milestone := true }]
    (by decide)


/-- `anchorDT` of a pair whose date parses. -/
theorem anchorDT_ok {k s : String} {w : DT} (h : parse_date_string s = .ok w) :
    anchorDT (k, s) = w := by
  simp only [anchorDT, h]

/-- A successful seed map is the seeding fold. -/
theorem seed_ok_eq_fold {tm : String → Option Task}
    {l : List (String × String)} {lf0 : String → Option DT}
    (h : seedAnchors tm l (fun _ => none) = .ok lf0) :
    lf0 = seedFold (fun _ => none) l := by
  have hv := seedAnchors_ok_valid h
  have h2 := seedAnchors_eq_fold hv (fun _ => none)
  rw [h] at h2
  exact Except.ok.inj h2

/-- The assembled row of a covered task. -/
theorem assemble_row_mem {tasks : List Task}
    {sched : List (String × DT × DT)} {fs : FState} {t : Task}
    (ht : t ∈ tasks) {p : DT × DT} (hp : schedLookup sched t.id = some p) :
    ∃ r ∈ assemble tasks sched fs, r.id = t.id ∧ r.name = t.name ∧
      r.start_date = formatDT p.1 ∧ r.end_date = formatDT p.2 := by
  have hmem : ({ id := t.id
                 name := t.name
                 start_date := formatDT p.1
                 end_date := formatDT p.2
                 completed := t.completed
                 notes := t.notes
                 is_critical := decide (Int.tdiv (p.1 -
                   (fs.early_start t.id).getD p.1) 60 ≤ 0)
                 slack_minutes := Int.tdiv (p.1 -
                   (fs.early_start t.id).getD p.1) 60
                 is_milestone := t.is_milestone } : ScheduledTask) ∈
      assemble tasks sched fs := by
    rw [assemble]
    exact List.mem_filterMap.mpr ⟨t, ht, by rw [hp]; rfl⟩
  exact ⟨_, hmem, rfl, rfl, rfl, rfl⟩

/-- On a nonempty successful run, some task is a sink (has no dependents). -/
theorem success_has_sink {req : ScheduleRequest} {lf0 : String → Option DT}
    {fin : BState} (hT : req.tasks ≠ [])
    (hloop : backLoop (taskMap req.tasks) (fuelBound req.tasks)
      (initBState req.tasks lf0) = .done fin)
    (hchk : ¬(fin.sched.length ≠ req.tasks.length ∧
      missingNames req.tasks fin.sched ≠ [])) :
    ∃ t0 ∈ req.tasks, dependentsMap req.tasks t0.id = [] := by
  by_contra hno
  push_neg at hno
  have hqinit : (initBState req.tasks lf0).queue = [] := by
    show ((req.tasks.filter
      (fun t => (dependentsMap req.tasks t.id).isEmpty)).map (fun t => t.id)).reverse = []
    rw [List.reverse_eq_nil_iff, List.map_eq_nil, List.filter_eq_nil_iff]
    intro t ht
    have := hno t ht
    rcases hdm : dependentsMap req.tasks t.id with _ | ⟨a, l⟩
    · exact absurd hdm this
    · exact fun hh => Bool.noConfusion hh
  have hdone : backLoop (taskMap req.tasks) (fuelBound req.tasks)
      (initBState req.tasks lf0) = .done (initBState req.tasks lf0) := by
    rw [show fuelBound req.tasks = Nat.succ (2 * (req.tasks.length +
      (req.tasks.map (fun t => t.dependencies.length)).sum)) from rfl]
    rw [backLoop, hqinit]
  rw [hloop] at hdone
  injection hdone with hdone
  have hsched : fin.sched = [] := by rw [hdone]; rfl
  apply hchk
  constructor
  · rw [hsched]
    have : 0 < req.tasks.length := List.length_pos.mpr hT
    simp only [List.length_nil]
    omega
  · rw [hsched]
    have hfe : req.tasks.filter
        (fun t => !(([] : List (String × DT × DT)).any (fun e => e.1 == t.id))) =
        req.tasks := List.filter_eq_self.mpr (fun a _ => rfl)
    rw [missingNames, hfe]
    intro hmapnil
    exact hT (List.map_eq_nil.mp hmapnil)


/-- C1 counterexample — with an empty task list the run succeeds (returning
`Ok []`) although the anchors map is nonempty, so no anchored task's Late
Finish equals its anchor: the tightness clause has no witness. -/
theorem c1_counterexample :
    calculate_backwards_schedule ⟨[], [("a", "2026-01-10T00:00:00")]⟩ =
      .ok [] ∧
    (⟨[], [("a", "2026-01-10T00:00:00")]⟩ : ScheduleRequest).anchors ≠ [] ∧
    ∀ r : ScheduledTask, r ∉ ([] : List ScheduledTask) :=
  ⟨by decide, by decide, fun r h => (List.not_mem_nil r) h⟩

/-- C1 amended — Anchor respect with min-tightening on nonempty task lists
(distinct anchor keys): every anchored task's output end date is the format
of a late finish `≤` its parsed anchor, at least one anchored task's end
date equals its parsed anchor exactly, and the S3 competing-anchor example
tightens A's end date to `2026-01-09T00:00:00`. -/
theorem c1_anchor_respect :
    (∀ (req : ScheduleRequest) (out : List ScheduledTask),
      req.tasks ≠ [] → (req.anchors.map Prod.fst).Nodup →
      calculate_backwards_schedule req = .ok out →
      (∀ t ∈ req.tasks, ∀ ds w, (t.id, ds) ∈ req.anchors →
        parse_date_string ds = .ok w →
        ∃ r ∈ out, r.id = t.id ∧ ∃ lf : DT, lf ≤ w ∧ r.end_date = formatDT lf) ∧
      (∃ t ∈ req.tasks, ∃ ds w, (t.id, ds) ∈ req.anchors ∧
        parse_date_string ds = .ok w ∧
        ∃ r ∈ out, r.id = t.id ∧ r.end_date = formatDT w)) ∧
    calculate_backwards_schedule
      ⟨[mkTask "a" "Task A" 1 none [], mkTask "b" "Task B" 1 none ["a"]],
        [("a", "2026-01-20T00:00:00"), ("b", "2026-01-10T00:00:00")]⟩ =
      .ok [{ id := "a", name := "Task A", start_date := "2026-01-08T00:00:00"
             end_date := "2026-01-09T00:00:00", completed := false
             notes := none, is_critical := true, slack_minutes := 0
             is_milestone := false },
           { id := "b", name := "Task B", start_date := "2026-01-09T00:00:00"
             end_date := "2026-01-10T00:00:00", completed := false
             notes := none, is_critical := true, slack_minutes := 0
             is_milestone := false }] := by
  refine ⟨?_, by decide⟩
  intro req out hT hnd h
  rcases calculate_ok_parts hT h with
    ⟨lf0, fin, ps, hseed, hloop, inv, hchk, hps, hout⟩
  have hlf0 := seed_ok_eq_fold hseed
  constructor
  · intro t ht ds w hmem hparse
    have hlfid : lf0 t.id = some w := by
      rw [hlf0, seedFold_lookup_mem hnd hmem, anchorDT_ok hparse]
    rcases sched_covered inv hchk t ht with ⟨p, hp⟩
    have hent := schedLookup_mem hp
    have hle := inv.sched_seed (t.id, p) hent w hlfid
    rcases @assemble_row_mem req.tasks fin.sched (runForward req.tasks ps) t
      ht p hp with ⟨r, hr, hid, _, _, hed⟩
    exact ⟨r, by rw [hout]; exact hr, hid, p.2, hle, hed⟩
  · rcases success_has_sink hT hloop hchk with ⟨t0, ht0, hsink⟩
    rcases sched_covered inv hchk t0 ht0 with ⟨p0, hp0⟩
    have hent := schedLookup_mem hp0
    have hlfeq := inv.sched_sink (t0.id, p0) hent hsink
    rw [hlf0] at hlfeq
    rcases seedFold_lookup_some hlfeq with ⟨ds, hmem, hdt⟩
    have hv := seedAnchors_ok_valid hseed (t0.id, ds) hmem
    rcases hpp : parse_date_string ds with e | w
    · rw [show parse_date_string (t0.id, ds).2 = .error e from hpp] at hv
      simp [Except.isOk, Except.toBool] at hv
    · have hw : anchorDT (t0.id, ds) = w := anchorDT_ok hpp
      have hwp : w = p0.2 := by rw [← hdt, hw]
      rcases @assemble_row_mem req.tasks fin.sched (runForward req.tasks ps) t0
        ht0 p0 hp0 with ⟨r, hr, hid, _, _, hed⟩
      exact ⟨t0, ht0, ds, w, hmem, hpp, r, by rw [hout]; exact hr, hid,
        by rw [hed, hwp]⟩

theorem c1_witness :
    ∃ t ∈ [mkTask "a" "Task A" 1 none [], mkTask "b" "Task B" 1 none ["a"]],
      ∃ ds w, (t.id, ds) ∈ [("a", "2026-01-20T00:00:00"), ("b", "2026-01-10T00:00:00")] ∧
      parse_date_string ds = .ok w ∧
      ∃ r ∈ [({ id := "a", name := "Task A", start_date := "2026-01-08T00:00:00"
                end_date := "2026-01-09T00:00:00", completed := false
                notes := none, is_critical := true, slack_minutes := 0
                is_milestone := false } : ScheduledTask),
              { id := "b", name := "Task B", start_date := "2026-01-09T00:00:00"
                end_date := "2026-01-10T00:00:00", completed := false
                notes := none, is_critical := true, slack_minutes := 0
                is_milestone := false }],
        r.id = t.id ∧ r.end_date = formatDT w :=
  (c1_anchor_respect.1
    ⟨[mkTask "a" "Task A" 1 none [], mkTask "b" "Task B" 1 none ["a"]],
      [("a", "2026-01-20T00:00:00"), ("b", "2026-01-10T00:00:00")]⟩
    _ (by decide) (by decide) (by decide)).2


/-- C9 counterexample — the codec is more lenient and wider than the claim:
`"2026-1-2T03:04:05"` matches neither `YYYY-MM-DDThh:mm:ss` nor
`YYYY-MM-DD` yet the run succeeds (chrono's numeric parsing accepts 1-digit
fields), and a far-future anchor year yields output dates such as
`"+10239-10-01T00:00:00"` that are not of shape `YYYY-MM-DDThh:mm:ss`. -/
theorem c9_counterexample :
    (specShapeDateTime "2026-1-2T03:04:05" = none ∧
     specShapeDate "2026-1-2T03:04:05" = none ∧
     calculate_backwards_schedule ⟨[mkTask "a" "Task A" 1 none []],
       [("a", "2026-1-2T03:04:05")]⟩ =
       .ok [{ id := "a", name := "Task A"
              start_date := "2026-01-01T03:04:05"
              end_date := "2026-01-02T03:04:05", completed := false
              notes := none, is_critical := true, slack_minutes := 0
              is_milestone := false }]) ∧
    (calculate_backwards_schedule ⟨[mkTask "a" "Task A" 1 none []],
       [("a", "+10239-10-01T00:00:00")]⟩ =
       .ok [{ id := "a", name := "Task A"
              start_date := "+10239-09-30T00:00:00"
              end_date := "+10239-10-01T00:00:00", completed := false
              notes := none, is_critical := true, slack_minutes := 0
              is_milestone := false }] ∧
     specShapeDateTime "+10239-09-30T00:00:00" = none ∧
     specShapeDateTime "+10239-10-01T00:00:00" = none) := by
  exact ⟨⟨by decide, by decide, by decide⟩, by decide, by decide, by decide⟩

/-- C9 amended — Date codec: a string of shape `YYYY-MM-DDThh:mm:ss` with a
valid calendar date parses to that exact timestamp; a string of shape
`YYYY-MM-DD` with a valid date parses to 23:59:59 on that date; the first
anchor (in iteration order) whose date fails to parse aborts the run with
`InvalidAnchorDate` carrying that anchor's task id and the parser's message;
every successful output's `start_date`/`end_date` is chrono's
`%Y-%m-%dT%H:%M:%S` rendering of the computed timestamps, which has shape
`YYYY-MM-DDThh:mm:ss` whenever the year lies in `0..=9999`. -/
theorem c9_amended_date_codec :
    (∀ (s : String) (y mo d h mi sec : Int),
      specShapeDateTime s = some (y, mo, d, h, mi, sec) →
      validYmd y mo d = true → h ≤ 23 → mi ≤ 59 → sec ≤ 59 →
      parse_date_string s = .ok (secsOfDateTime y mo d h mi sec)) ∧
    (∀ (s : String) (y mo d : Int),
      specShapeDate s = some (y, mo, d) → validYmd y mo d = true →
      parse_date_string s = .ok (secsOfDateTime y mo d 23 59 59)) ∧
    (∀ (req : ScheduleRequest) (pre post : List (String × String))
      (aid astr msg : String), req.tasks ≠ [] →
      req.anchors = pre ++ (aid, astr) :: post →
      (∀ p ∈ pre, ((taskMap req.tasks) p.1).isSome ∧
        (parse_date_string p.2).isOk) →
      ((taskMap req.tasks) aid).isSome →
      parse_date_string astr = .error msg →
      calculate_backwards_schedule req =
        .error (.InvalidAnchorDate aid msg)) ∧
    (∀ (req : ScheduleRequest) (out : List ScheduledTask),
      calculate_backwards_schedule req = .ok out →
      ∀ r ∈ out, ∃ ls lf : DT, r.start_date = formatDT ls ∧
        r.end_date = formatDT lf) ∧
    (∀ (v : DT) (y m d : Int), civilFromDays (v / 86400) = (y, m, d) →
      0 ≤ y → y ≤ 9999 → 1 ≤ m → m ≤ 12 → 1 ≤ d → d ≤ 31 →
      (specShapeDateTime (formatDT v)).isSome = true) := by
  refine ⟨?_, ?_, ?_, ?_, ?_⟩
  · intro s y mo d h mi sec hsh hv hh hmi hsec
    exact parse_exact_of_shape1 hsh hv hh hmi hsec
  · intro s y mo d hsh hv
    exact parse_eod_of_shape2 hsh hv
  · intro req pre post aid astr msg hT hanch hpre haid hparse
    apply calculate_seed_error hT
    rw [hanch]
    exact seedAnchors_first_bad hpre haid hparse _
  · intro req out h r hr
    by_cases hT : req.tasks = []
    · rw [calculate_backwards_schedule, if_pos hT] at h
      injection h with h
      subst h
      cases hr
    · rcases calculate_ok_parts hT h with
        ⟨lf0, fin, ps, hseed, hloop, inv, hchk, hps, hout⟩
      rw [hout] at hr
      rcases assemble_mem hr with ⟨t, ht, p, hp, hform⟩
      exact ⟨p.1, p.2, by rw [hform], by rw [hform]⟩
  · intro v y m d hc hy0 hy hm0 hm hd0 hd
    exact formatDT_shape hc hy0 hy hm0 hm hd0 hd

theorem c9_witness :
    parse_date_string "2026-01-10" = .ok (secsOfDateTime 2026 1 10 23 59 59) :=
  c9_amended_date_codec.2.1 "2026-01-10" 2026 1 10 (by decide) (by decide)


/-! ## Forward-pass bookkeeping under distinct task ids -/

/-- A per-task attribute map built like `task_map` agrees with `taskMap`. -/
theorem graphMap_eq {α : Type} (g : Task → α) (tasks : List Task) (x : String) :
    tasks.foldl (fun m t => upd m t.id (g t)) (fun _ => none) x =
    (taskMap tasks x).map g := by
  suffices hgen : ∀ (l : List Task) (m : String → Option Task)
      (m2 : String → Option α), (∀ y, m2 y = (m y).map g) → ∀ y,
      (l.foldl (fun m t => upd m t.id (g t)) m2) y =
      ((l.foldl (fun m t => upd m t.id t) m) y).map g by
    exact hgen tasks (fun _ => none) (fun _ => none) (fun y => rfl) x
  intro l
  induction l with
  | nil => intro m m2 h y; exact h y
  | cons hd tl ih =>
    intro m m2 h y
    rw [List.foldl_cons, List.foldl_cons]
    apply ih
    intro z
    by_cases hz : z = hd.id
    · subst hz
      rw [upd_eq, upd_eq]
      rfl
    · rw [upd_ne _ _ hz, upd_ne _ _ hz]
      exact h z

/-- Adding a fresh id to the processed pool discharges exactly its
occurrences. -/
theorem filter_cons_count {deps P : List String} {x : String} (hx : x ∉ P) :
    (deps.filter (fun d => (x :: P).contains d)).length =
      (deps.filter (fun d => P.contains d)).length + deps.count x := by
  induction deps with
  | nil => rfl
  | cons d tl ih =>
    rw [List.filter_cons, List.filter_cons]
    by_cases hdx : d = x
    · subst hdx
      have h1 : (d :: P).contains d = true := by simp
      have h2 : P.contains d = false := by
        rw [← Bool.not_eq_true]
        intro hc
        exact hx (by simpa using hc)
      rw [h1, h2, if_pos rfl, if_neg (fun h => Bool.noConfusion h),
        List.count_cons_self, List.length_cons, ih]
      omega
    · have hcnt : (d :: tl).count x = tl.count x := by
        simp [List.count_cons, hdx]
      by_cases hdP : d ∈ P
      · have h1 : (x :: P).contains d = true := by
          simpa using Or.inr hdP
        have h2 : P.contains d = true := by simpa using hdP
        rw [h1, h2, if_pos rfl, if_pos rfl, hcnt,
          List.length_cons, List.length_cons, ih]
        omega
      · have h1 : (x :: P).contains d = false := by
          rw [← Bool.not_eq_true]
          intro hc
          rcases (by simpa using hc : d = x ∨ d ∈ P) with h | h
          · exact hdx h
          · exact hdP h
        have h2 : P.contains d = false := by
          rw [← Bool.not_eq_true]
          intro hc
          exact hdP (by simpa using hc)
        rw [h1, h2, if_neg (fun h => Bool.noConfusion h),
          if_neg (fun h => Bool.noConfusion h), hcnt, ih]

/-- Multiplicity of a consumer id in a dependents list, with distinct task
ids: the number of occurrences of the provider in that consumer's
dependency list. -/
theorem dependentsMap_count {tasks : List Task}
    (hnd : (tasks.map Task.id).Nodup) {c : String} {tc : Task}
    (htc : taskMap tasks c = some tc) (x : String) :
    (dependentsMap tasks x).count c = tc.dependencies.count x := by
  rcases taskMap_mem htc with ⟨htcmem, htcid⟩
  rw [dependentsMap_eq]
  have hgen : ∀ (l : List Task) (init : List String),
      (l.foldl (fun acc t => acc ++ List.replicate (t.dependencies.count x) t.id)
        init).count c =
      init.count c +
        ((l.map (fun t => if t.id = c then t.dependencies.count x else 0)).sum) := by
    intro l
    induction l with
    | nil => intro init; simp
    | cons hd tl ih =>
      intro init
      rw [List.foldl_cons, ih, List.map_cons, List.sum_cons, List.count_append,
        List.count_replicate]
      by_cases hid : hd.id = c
      · rw [if_pos hid, if_pos (beq_iff_eq.mpr hid)]
        omega
      · rw [if_neg hid, if_neg ?_]
        · omega
        · intro hbeq
          exact hid (beq_iff_eq.mp hbeq)
  rw [hgen]
  simp only [List.count_nil, Nat.zero_add]
  clear hgen htc
  induction tasks with
  | nil => cases htcmem
  | cons hd tl ih =>
    rw [List.map_cons] at hnd
    rw [List.map_cons, List.sum_cons]
    rcases List.mem_cons.mp htcmem with rfl | hmem
    · rw [if_pos htcid]
      have hz : ∀ t ∈ tl, (if t.id = c then t.dependencies.count x else 0) = 0 := by
        intro t ht
        rw [if_neg ?_]
        intro hc
        rw [← htcid] at hc
        exact (List.nodup_cons.mp hnd).1 (List.mem_map.mpr ⟨t, ht, hc⟩)
      have : (tl.map (fun t => if t.id = c then t.dependencies.count x else 0)).sum = 0 := by
        apply List.sum_eq_zero
        intro n hn
        rcases List.mem_map.mp hn with ⟨t, ht, rfl⟩
        exact hz t ht
      omega
    · have hhd : hd.id ≠ c := by
        intro hc
        rw [← htcid] at hc
        exact (List.nodup_cons.mp hnd).1
          (List.mem_map.mpr ⟨tc, hmem, hc.symm⟩)
      rw [if_neg hhd, ih (List.nodup_cons.mp hnd).2 hmem]
      omega


theorem forwardPropagate_eq (cs : List String) (s : FState) :
    forwardPropagate cs s = cs.foldl fstep s := rfl

theorem fstep_deg_ne (st : FState) {c id : String} (h : id ≠ c) :
    (fstep st c).in_degree id = st.in_degree id := by
  rw [fstep]
  rcases hc : st.in_degree c with _ | d
  · simp [hc]
  · simp [hc, upd_ne _ _ h]

theorem fstep_deg_eq (st : FState) (c : String) :
    (fstep st c).in_degree c =
      match st.in_degree c with
      | none => none
      | some d => some (decWrap d) := by
  rw [fstep]
  rcases hc : st.in_degree c with _ | d
  · simp [hc]
  · simp [hc, upd_eq]

theorem fstep_queue (st : FState) (c : String) :
    (fstep st c).queue = st.queue ∨
    ((fstep st c).queue = c :: st.queue ∧
      (fstep st c).in_degree c = some 0) := by
  rw [fstep]
  rcases hc : st.in_degree c with _ | d
  · left; simp [hc]
  · by_cases hz : decWrap d = 0
    · right
      constructor
      · simp [hc, hz]
      · simp [hc, upd_eq, hz]
    · left; simp [hc, hz]

/-- In-degree bookkeeping of one forward propagation, when no counter
underflows. -/
theorem fp_deg_formula (cs : List String) (s : FState)
    (hbound : ∀ c dg, s.in_degree c = some dg → cs.count c ≤ dg) :
    ∀ c, (forwardPropagate cs s).in_degree c =
      match s.in_degree c with
      | none => none
      | some dg => some (dg - cs.count c) := by
  rw [forwardPropagate_eq]
  induction cs generalizing s with
  | nil =>
    intro c
    rcases h : s.in_degree c with _ | dg <;> simp [h]
  | cons d tl ih =>
    intro c
    rw [List.foldl_cons]
    have hbound' : ∀ c dg, (fstep s d).in_degree c = some dg →
        tl.count c ≤ dg := by
      intro c' dg' h'
      by_cases hid : c' = d
      · subst hid
        rw [fstep_deg_eq] at h'
        rcases hc : s.in_degree c' with _ | d0
        · rw [hc] at h'; cases h'
        · rw [hc] at h'
          injection h' with h'
          have hb := hbound c' d0 hc
          rw [List.count_cons_self] at hb
          rw [decWrap] at h'
          rw [if_neg (by omega)] at h'
          omega
      · rw [fstep_deg_ne _ hid] at h'
        have hb := hbound c' dg' h'
        have hne : d ≠ c' := fun h => hid h.symm
        have : (d :: tl).count c' = tl.count c' := by
          simp [List.count_cons, hne]
        rw [this] at hb
        omega
    rw [ih _ hbound']
    by_cases hid : c = d
    · subst hid
      rw [fstep_deg_eq]
      rcases hc : s.in_degree c with _ | dg
      · rfl
      · dsimp only
        have hb := hbound c dg hc
        rw [List.count_cons_self] at hb
        rw [List.count_cons_self, decWrap, if_neg (by omega)]
        congr 1
        omega
    · rw [fstep_deg_ne _ hid]
      rcases hc : s.in_degree c with _ | dg
      · rfl
      · dsimp only
        congr 1
        have hne : d ≠ c := fun h => hid h.symm
        have : (d :: tl).count c = tl.count c := by
          simp [List.count_cons, hne]
        rw [this]

/-- The forward propagation pushes exactly the consumers whose in-degree
reaches zero, each at most once, in front of the old queue. -/
theorem fp_queue_suffix (cs : List String) (s : FState)
    (hbound : ∀ c dg, s.in_degree c = some dg → cs.count c ≤ dg) :
    ∃ pushed, (forwardPropagate cs s).queue = pushed ++ s.queue ∧
      pushed.Nodup ∧
      ∀ p ∈ pushed, p ∈ cs ∧ (forwardPropagate cs s).in_degree p = some 0 := by
  rw [forwardPropagate_eq]
  induction cs generalizing s with
  | nil => exact ⟨[], rfl, List.nodup_nil, by simp⟩
  | cons d tl ih =>
    rw [List.foldl_cons]
    have hbound' : ∀ c dg, (fstep s d).in_degree c = some dg →
        tl.count c ≤ dg := by
      intro c' dg' h'
      by_cases hid : c' = d
      · subst hid
        rw [fstep_deg_eq] at h'
        rcases hc : s.in_degree c' with _ | d0
        · rw [hc] at h'; cases h'
        · rw [hc] at h'
          injection h' with h'
          have hb := hbound c' d0 hc
          rw [List.count_cons_self] at hb
          rw [decWrap] at h'
          rw [if_neg (by omega)] at h'
          omega
      · rw [fstep_deg_ne _ hid] at h'
        have hb := hbound c' dg' h'
        have hne : d ≠ c' := fun h => hid h.symm
        have : (d :: tl).count c' = tl.count c' := by
          simp [List.count_cons, hne]
        rw [this] at hb
        omega
    rcases ih _ hbound' with ⟨pushed, hq, hnd, hp⟩
    rcases fstep_queue s d with hs | ⟨hs, hc0⟩
    · refine ⟨pushed, by rw [hq, hs], hnd, ?_⟩
      intro p hmem
      exact ⟨List.mem_cons_of_mem _ (hp p hmem).1, (hp p hmem).2⟩
    · have hdtl : d ∉ tl := by
        rw [fstep_deg_eq] at hc0
        rcases hc : s.in_degree d with _ | c0
        · rw [hc] at hc0; cases hc0
        · rw [hc] at hc0
          injection hc0 with hc0
          have hb := hbound d c0 hc
          rw [List.count_cons_self] at hb
          rw [decWrap] at hc0
          by_cases hz : c0 = 0
          · rw [if_pos hz] at hc0; cases hc0
          · rw [if_neg hz] at hc0
            intro hmem
            have := List.count_pos_iff.mpr hmem
            omega
      refine ⟨pushed ++ [d], by rw [hq, hs]; simp, ?_, ?_⟩
      · rw [List.nodup_append]
        refine ⟨hnd, List.nodup_singleton d, ?_⟩
        intro a ha hb
        rcases List.mem_singleton.mp hb with rfl
        exact hdtl ((hp a ha).1)
      · intro p hmem
        rcases List.mem_append.mp hmem with hmem' | hmem'
        · exact ⟨List.mem_cons_of_mem _ (hp p hmem').1, (hp p hmem').2⟩
        · rcases List.mem_singleton.mp hmem' with rfl
          constructor
          · exact List.mem_cons_self _ _
          · have hfp := fp_deg_formula tl (fstep s p) hbound'
            rw [forwardPropagate_eq] at hfp
            rw [hfp p, hc0]
            dsimp only
            rw [List.count_eq_zero_of_not_mem hdtl]


/-- One processing step of the forward loop preserves the invariant. -/
theorem FInv_step {tasks : List Task} (hnd : (tasks.map Task.id).Nodup)
    {P : List String} {fs : FState} (inv : FInv tasks P fs)
    {x : String} {rest : List String} (hq : fs.queue = x :: rest)
    {t : Task} (htm : taskMap tasks x = some t) (ps : DT) :
    FInv tasks (x :: P) (forwardPropagate (dependentsMap tasks x)
      { fs with
        queue := rest
        early_start := upd fs.early_start x
          (earlyStartOfTask fs.early_finish ps t)
        early_finish := upd fs.early_finish x
          (earlyStartOfTask fs.early_finish ps t + durationSecs t) }) := by
  have hqnd : ((x :: rest) ++ P).Nodup := by rw [← hq]; exact inv.qp_nodup
  rw [List.cons_append, List.nodup_cons] at hqnd
  have hxfresh : x ∉ rest ++ P := hqnd.1
  have hxnP : x ∉ P := fun h => hxfresh (List.mem_append.mpr (Or.inr h))
  have hxnrest : x ∉ rest := fun h => hxfresh (List.mem_append.mpr (Or.inl h))
  set es' : DT := earlyStartOfTask fs.early_finish ps t with hes'
  set s1 : FState := { fs with
    queue := rest
    early_start := upd fs.early_start x es'
    early_finish := upd fs.early_finish x (es' + durationSecs t) } with hs1
  set cs : List String := dependentsMap tasks x with hcs
  have hdeg1 : s1.in_degree = fs.in_degree := rfl
  -- every consumer is a task, and its multiplicity is its dependency count
  have hconsumer : ∀ c ∈ cs, ∃ tc, taskMap tasks c = some tc ∧
      x ∈ tc.dependencies := by
    intro c hc
    rcases dependentsMap_mem hc with ⟨tc, htcm, hcid, hxd⟩
    exact ⟨tc, by rw [hcid]; exact taskMap_nodup hnd htcm, hxd⟩
  have hbound : ∀ c dg, s1.in_degree c = some dg → cs.count c ≤ dg := by
    intro c dg hdg
    rw [hdeg1] at hdg
    by_cases hc0 : cs.count c = 0
    · omega
    · have hcmem : c ∈ cs := by
        by_contra hno
        exact hc0 (List.count_eq_zero_of_not_mem hno)
      rcases hconsumer c hcmem with ⟨tc, htc, _⟩
      rcases inv.deg c tc htc with ⟨dg0, hdg0, heq⟩
      rw [hdg0] at hdg
      injection hdg with hdg
      subst hdg
      have hcnt : cs.count c = tc.dependencies.count x :=
        dependentsMap_count hnd htc x
      have hfil := @filter_cons_count tc.dependencies P x hxnP
      have hle := tc.dependencies.length_filter_le
        (fun d => (x :: P).contains d)
      omega
  rcases fp_queue_suffix cs s1 hbound with ⟨pushed, hqf, hpnd, hpush⟩
  have hdegf := fp_deg_formula cs s1 hbound
  have hq1 : s1.queue = rest := rfl
  -- a pushed consumer is fresh: it cannot be queued, processed, or x itself
  have hfresh : ∀ p ∈ pushed, p ∉ rest ∧ p ∉ P ∧ p ≠ x := by
    intro p hp
    have hpcs := (hpush p hp).1
    rcases hconsumer p hpcs with ⟨tp, htp, hxdep⟩
    have hnot : ¬(p ∈ fs.queue ∨ p ∈ P) := by
      intro hmem
      exact hxnP (inv.ready p tp htp hmem x hxdep)
    refine ⟨?_, ?_, ?_⟩
    · intro h
      exact hnot (Or.inl (by rw [hq]; exact List.mem_cons_of_mem _ h))
    · intro h
      exact hnot (Or.inr h)
    · intro h
      exact hnot (Or.inl (by rw [hq, h]; exact List.mem_cons_self _ _))
  refine
    { start_iff := ?_
      finish_iff := ?_
      qp_nodup := ?_
      deg := ?_
      ready := ?_
      prec := ?_ }
  · intro y
    rw [fp_es]
    by_cases hxy : y = x
    · subst hxy
      show ((upd fs.early_start y es' y).isSome = true) ↔ _
      rw [upd_eq]
      simp
    · show ((upd fs.early_start x es' y).isSome = true) ↔ _
      rw [upd_ne _ _ hxy]
      rw [inv.start_iff y]
      constructor
      · exact fun h => List.mem_cons_of_mem _ h
      · intro h
        rcases List.mem_cons.mp h with h' | h'
        · exact absurd h' hxy
        · exact h'
  · intro y
    rw [fp_ef]
    by_cases hxy : y = x
    · subst hxy
      show ((upd fs.early_finish y _ y).isSome = true) ↔ _
      rw [upd_eq]
      simp
    · show ((upd fs.early_finish x _ y).isSome = true) ↔ _
      rw [upd_ne _ _ hxy]
      rw [inv.finish_iff y]
      constructor
      · exact fun h => List.mem_cons_of_mem _ h
      · intro h
        rcases List.mem_cons.mp h with h' | h'
        · exact absurd h' hxy
        · exact h'
  · rw [hqf, hq1]
    rcases List.nodup_append.mp hqnd.2 with ⟨hrestnd, hPnd, hrestP⟩
    rw [List.nodup_append]
    refine ⟨?_, ?_, ?_⟩
    · rw [List.nodup_append]
      refine ⟨hpnd, hrestnd, ?_⟩
      intro a ha
      exact (hfresh a ha).1
    · rw [List.nodup_cons]
      exact ⟨hxnP, hPnd⟩
    · intro a ha hb
      rcases List.mem_cons.mp hb with rfl | hbP
      · rcases List.mem_append.mp ha with h | h
        · exact (hfresh a h).2.2 rfl
        · exact hxnrest h
      · rcases List.mem_append.mp ha with h | h
        · exact (hfresh a h).2.1 hbP
        · exact hrestP h hbP
  · intro y ty hty
    rcases inv.deg y ty hty with ⟨dg, hdg, heq⟩
    have hcnt : cs.count y = ty.dependencies.count x :=
      dependentsMap_count hnd hty x
    have hfil := @filter_cons_count ty.dependencies P x hxnP
    have hb := hbound y dg (by rw [hdeg1]; exact hdg)
    refine ⟨dg - cs.count y, ?_, ?_⟩
    · rw [hdegf y, hdeg1, hdg]
    · omega
  · intro y ty hty hmem dep hdep
    rcases hmem with hmem | hmem
    · rw [hqf, hq1] at hmem
      rcases List.mem_append.mp hmem with hp | hr
      · -- freshly pushed: its in-degree reached zero
        have hdeg0 := (hpush y hp).2
        rw [hdegf y, hdeg1] at hdeg0
        rcases inv.deg y ty hty with ⟨dg, hdg, heq⟩
        rw [hdg] at hdeg0
        dsimp only at hdeg0
        injection hdeg0 with hdeg0
        have hcnt : cs.count y = ty.dependencies.count x :=
          dependentsMap_count hnd hty x
        have hfil := @filter_cons_count ty.dependencies P x hxnP
        have hb := hbound y dg (by rw [hdeg1]; exact hdg)
        have hall : (ty.dependencies.filter
            (fun d => ((x :: P).contains d))).length =
            ty.dependencies.length := by omega
        have := List.filter_length_eq_length.mp hall dep hdep
        simpa using this
      · have := inv.ready y ty hty
          (Or.inl (by rw [hq]; exact List.mem_cons_of_mem _ hr)) dep hdep
        exact List.mem_cons_of_mem _ this
    · rcases List.mem_cons.mp hmem with rfl | hP
      · have := inv.ready y ty hty
          (Or.inl (by rw [hq]; exact List.mem_cons_self _ _)) dep hdep
        exact List.mem_cons_of_mem _ this
      · have := inv.ready y ty hty (Or.inr hP) dep hdep
        exact List.mem_cons_of_mem _ this
  · intro y ty hty esy hesy dep hdep efd hefd
    rw [fp_es] at hesy
    rw [fp_ef] at hefd
    by_cases hxy : y = x
    · subst hxy
      rw [show s1.early_start y = upd fs.early_start y es' y from rfl,
        upd_eq] at hesy
      injection hesy with hesy
      rw [htm] at hty
      injection hty with hty
      subst hty
      have hdP : dep ∈ P := inv.ready y t htm
        (Or.inl (by rw [hq]; exact List.mem_cons_self _ _)) dep hdep
      have hdnx : dep ≠ y := fun h => hxnP (h ▸ hdP)
      rw [show s1.early_finish dep = upd fs.early_finish y
        (es' + durationSecs t) dep from rfl, upd_ne _ _ hdnx] at hefd
      rw [← hesy]
      exact earlyStartOfTask_ge fs.early_finish ps t dep hdep efd hefd
    · rw [show s1.early_start y = upd fs.early_start x es' y from rfl,
        upd_ne _ _ hxy] at hesy
      have hyP : y ∈ P := (inv.start_iff y).mp (by rw [hesy]; rfl)
      by_cases hdx : dep = x
      · exfalso
        apply hxnP
        rw [← hdx]
        exact inv.ready y ty hty (Or.inr hyP) dep hdep
      · rw [show s1.early_finish dep = upd fs.early_finish x
          (es' + durationSecs t) dep from rfl, upd_ne _ _ hdx] at hefd
        exact inv.prec y ty hty esy hesy dep hdep efd hefd


/-- Skipping an id with no task preserves the invariant. -/
theorem FInv_skip {tasks : List Task} {P : List String} {fs : FState}
    (inv : FInv tasks P fs) {x : String} {rest : List String}
    (hq : fs.queue = x :: rest) :
    FInv tasks P { fs with queue := rest } := by
  have hqnd : ((x :: rest) ++ P).Nodup := by rw [← hq]; exact inv.qp_nodup
  rw [List.cons_append, List.nodup_cons] at hqnd
  refine
    { start_iff := inv.start_iff
      finish_iff := inv.finish_iff
      qp_nodup := hqnd.2
      deg := inv.deg
      ready := ?_
      prec := inv.prec }
  intro y ty hty hmem
  refine inv.ready y ty hty ?_
  rcases hmem with hmem | hmem
  · exact Or.inl (by rw [hq]; exact List.mem_cons_of_mem _ hmem)
  · exact Or.inr hmem

/-- The initial forward state satisfies the invariant with an empty
processed pool. -/
theorem FInv_init {tasks : List Task} (hnd : (tasks.map Task.id).Nodup) :
    FInv tasks [] (initFState tasks) := by
  refine
    { start_iff := ?_
      finish_iff := ?_
      qp_nodup := ?_
      deg := ?_
      ready := ?_
      prec := ?_ }
  · intro x
    constructor
    · intro h; cases h
    · intro h; cases h
  · intro x
    constructor
    · intro h; cases h
    · intro h; cases h
  · rw [List.append_nil]
    show (((tasks.filter (fun t => t.dependencies.isEmpty)).map
      (fun t => t.id)).reverse).Nodup
    rw [List.nodup_reverse]
    have hsub : ((tasks.filter (fun t => t.dependencies.isEmpty)).map
        (fun t => t.id)).Sublist (tasks.map (fun t => t.id)) :=
      (List.filter_sublist tasks).map _
    exact hsub.nodup (by
      have : (tasks.map (fun t => t.id)) = tasks.map Task.id := rfl
      rw [this]; exact hnd)
  · intro x t htm
    refine ⟨t.dependencies.length, ?_, ?_⟩
    · have h := graphMap_eq (fun t => t.dependencies.length) tasks x
      have h2 : (initFState tasks).in_degree x =
          (taskMap tasks x).map (fun t => t.dependencies.length) := h
      rw [h2, htm]
      rfl
    · have : t.dependencies.filter (fun d => ([] : List String).contains d) = [] := by
        apply List.filter_eq_nil_iff.mpr
        intro a _
        simp
      rw [this]
      simp
  · intro x t htm hmem dep hdep
    exfalso
    rcases hmem with hmem | hmem
    · have hmem' : x ∈ ((tasks.filter (fun t => t.dependencies.isEmpty)).map
          (fun t => t.id)).reverse := hmem
      rw [List.mem_reverse] at hmem'
      rcases List.mem_map.mp hmem' with ⟨t0, ht0, hid⟩
      have ht0f := List.mem_filter.mp ht0
      have ht0m : taskMap tasks x = some t0 := by
        rw [← hid]
        exact taskMap_nodup hnd ht0f.1
      rw [htm] at ht0m
      injection ht0m with ht0m
      subst ht0m
      have : t.dependencies = [] := by
        have := ht0f.2
        rcases hdl : t.dependencies with _ | ⟨a, l⟩
        · rfl
        · rw [hdl] at this; cases this
      rw [this] at hdep
      cases hdep
    · cases hmem
  · intro x t _ esx hesx
    cases hesx

/-- The forward loop preserves the invariant for some processed pool. -/
theorem forwardLoop_finv {tasks : List Task} (hnd : (tasks.map Task.id).Nodup)
    (ps : DT) (fuel : Nat) (fs : FState) (P : List String)
    (inv : FInv tasks P fs) :
    ∃ P', FInv tasks P'
      (forwardLoop (taskMap tasks) (dependentsMap tasks) ps fuel fs) := by
  induction fuel generalizing fs P with
  | zero => exact ⟨P, inv⟩
  | succ fuel ih =>
    rw [forwardLoop]
    rcases hq : fs.queue with _ | ⟨x, rest⟩
    · exact ⟨P, inv⟩
    · dsimp only
      rcases htm : taskMap tasks x with _ | t
      · dsimp only
        exact ih { fs with queue := rest } P (FInv_skip inv hq)
      · dsimp only
        exact ih _ _ (FInv_step hnd inv hq htm ps)


/-- C2 counterexample — with duplicate task ids the run succeeds while the
forward pass violates precedence on the edge a → b: the reprocessing of a
duplicate raises `EarlyFinish(a)` above the already-computed
`EarlyStart(b)`. -/
theorem c2_counterexample :
    (calculate_backwards_schedule c2req).isOk = true ∧
    taskMap c2req.tasks "b" = some (mkTask "b" "B" 1 none ["a"]) ∧
    "a" ∈ (mkTask "b" "B" 1 none ["a"]).dependencies ∧
    backResult c2req = .ok (finOf c2req) ∧
    projectStart (finOf c2req).sched = some 1768608000 ∧
    (runForward c2req.tasks 1768608000).early_finish "a" =
      some 1768780800 ∧
    (runForward c2req.tasks 1768608000).early_start "b" =
      some 1768694400 ∧
    (1768694400 : DT) < 1768780800 :=
  ⟨by decide, by decide, by decide, rfl, by decide, by decide, by decide,
    by decide⟩

/-- C3 counterexample — with duplicate task ids the run succeeds while the
output interval of the five-day task `A1` spans only one day: the backward
pass used the duplicate map entry's duration (last task wins). -/
theorem c3_counterexample :
    calculate_backwards_schedule c3req =
      .ok [{ id := "a", name := "A1", start_date := "2026-01-09T00:00:00"
             end_date := "2026-01-10T00:00:00", completed := false
             notes := none, is_critical := true, slack_minutes := 0
             is_milestone := false },
           { id := "a", name := "A2", start_date := "2026-01-09T00:00:00"
             end_date := "2026-01-10T00:00:00", completed := false
             notes := none, is_critical := true, slack_minutes := 0
             is_milestone := false }] ∧
    c3req.tasks.head? = some (mkTask "a" "A1" 5 none []) ∧
    durationSecs (mkTask "a" "A1" 5 none []) = 432000 ∧
    backResult c3req = .ok (finOf c3req) ∧
    schedLookup (finOf c3req).sched "a" =
      some (secsOfDateTime 2026 1 9 0 0 0, secsOfDateTime 2026 1 10 0 0 0) ∧
    secsOfDateTime 2026 1 10 0 0 0 - secsOfDateTime 2026 1 9 0 0 0 =
      (86400 : DT) :=
  ⟨by decide, by decide, by decide, rfl, by decide, by decide⟩


/-- C2 amended — Precedence on inputs with distinct task ids: for every
successful run and every dependency edge A → B between request tasks, the
backward entries satisfy `LateFinish(A) ≤ LateStart(B)` (visible in the
output dates), and the forward pass satisfies
`EarlyFinish(A) ≤ EarlyStart(B)` whenever both values are computed. -/
theorem c2_amended_precedence :
    ∀ (req : ScheduleRequest) (out : List ScheduledTask),
      (req.tasks.map Task.id).Nodup →
      calculate_backwards_schedule req = .ok out →
      ∀ A ∈ req.tasks, ∀ B ∈ req.tasks, A.id ∈ B.dependencies →
      (∃ pA pB : DT × DT, ∃ fin : BState, backResult req = .ok fin ∧
        schedLookup fin.sched A.id = some pA ∧
        schedLookup fin.sched B.id = some pB ∧
        pA.2 ≤ pB.1 ∧
        ∃ rA ∈ out, ∃ rB ∈ out, rA.id = A.id ∧ rB.id = B.id ∧
          rA.end_date = formatDT pA.2 ∧ rB.start_date = formatDT pB.1) ∧
      (∀ (fin : BState) (ps : DT), backResult req = .ok fin →
        projectStart fin.sched = some ps →
        ∀ efa, (runForward req.tasks ps).early_finish A.id = some efa →
        ∀ esb, (runForward req.tasks ps).early_start B.id = some esb →
        efa ≤ esb) := by
  intro req out hnd h A hA B hB hedge
  have hT : req.tasks ≠ [] := fun hnil => by rw [hnil] at hA; cases hA
  rcases calculate_ok_parts hT h with
    ⟨lf0, fin, ps, hseed, hloop, inv, hchk, hps, hout⟩
  have hbr : backResult req = .ok fin := calculate_ok_backResult hseed hloop
  have htmB : taskMap req.tasks B.id = some B := taskMap_nodup hnd hB
  constructor
  · rcases sched_covered inv hchk A hA with ⟨pA, hpA⟩
    rcases sched_covered inv hchk B hB with ⟨pB, hpB⟩
    have hprec := inv.sched_prec (A.id, pA) (schedLookup_mem hpA)
      (B.id, pB) (schedLookup_mem hpB) B htmB hedge
    rcases @assemble_row_mem req.tasks fin.sched (runForward req.tasks ps) A
      hA pA hpA with ⟨rA, hrA, hidA, _, _, hedA⟩
    rcases @assemble_row_mem req.tasks fin.sched (runForward req.tasks ps) B
      hB pB hpB with ⟨rB, hrB, hidB, _, hsdB, _⟩
    exact ⟨pA, pB, fin, hbr, hpA, hpB, hprec, rA, by rw [hout]; exact hrA,
      rB, by rw [hout]; exact hrB, hidA, hidB, hedA, hsdB⟩
  · intro fin2 ps2 hbr2 hps2 efa hefa esb hesb
    rw [hbr] at hbr2
    injection hbr2 with hbr2
    subst hbr2
    rcases forwardLoop_finv hnd ps2 (fuelBound req.tasks) (initFState req.tasks)
      [] (FInv_init hnd) with ⟨P', invF⟩
    rw [show runForward req.tasks ps2 = forwardLoop (taskMap req.tasks)
      (dependentsMap req.tasks) ps2 (fuelBound req.tasks) (initFState req.tasks)
      from rfl] at hefa hesb
    exact invF.prec B.id B htmB esb hesb A.id hedge efa hefa

theorem c2_witness :
    (∃ pA pB : DT × DT, ∃ fin : BState,
      backResult ⟨[mkTask "p" "Task P" 2 none [], mkTask "q" "Task Q" 1 none ["p"]],
        [("q", "2026-02-01T00:00:00")]⟩ = .ok fin ∧
      schedLookup fin.sched (mkTask "p" "Task P" 2 none []).id = some pA ∧
      schedLookup fin.sched (mkTask "q" "Task Q" 1 none ["p"]).id = some pB ∧
      pA.2 ≤ pB.1 ∧
      ∃ rA ∈ [({ id := "p", name := "Task P", start_date := "2026-01-29T00:00:00"
                 end_date := "2026-01-31T00:00:00", completed := false
                 notes := none, is_critical := true, slack_minutes := 0
                 is_milestone := false } : ScheduledTask),
               { id := "q", name := "Task Q", start_date := "2026-01-31T00:00:00"
                 end_date := "2026-02-01T00:00:00", completed := false
                 notes := none, is_critical := true, slack_minutes := 0
                 is_milestone := false }],
        ∃ rB ∈ [({ id := "p", name := "Task P", start_date := "2026-01-29T00:00:00"
                   end_date := "2026-01-31T00:00:00", completed := false
                   notes := none, is_critical := true, slack_minutes := 0
                   is_milestone := false } : ScheduledTask),
                 { id := "q", name := "Task Q", start_date := "2026-01-31T00:00:00"
                   end_date := "2026-02-01T00:00:00", completed := false
                   notes := none, is_critical := true, slack_minutes := 0
                   is_milestone := false }],
          rA.id = (mkTask "p" "Task P" 2 none []).id ∧
          rB.id = (mkTask "q" "Task Q" 1 none ["p"]).id ∧
          rA.end_date = formatDT pA.2 ∧ rB.start_date = formatDT pB.1) ∧
    (∀ (fin : BState) (ps : DT),
      backResult ⟨[mkTask "p" "Task P" 2 none [], mkTask "q" "Task Q" 1 none ["p"]],
        [("q", "2026-02-01T00:00:00")]⟩ = .ok fin →
      projectStart fin.sched = some ps →
      ∀ efa, (runForward [mkTask "p" "Task P" 2 none [],
        mkTask "q" "Task Q" 1 none ["p"]] ps).early_finish
          (mkTask "p" "Task P" 2 none []).id = some efa →
      ∀ esb, (runForward [mkTask "p" "Task P" 2 none [],
        mkTask "q" "Task Q" 1 none ["p"]] ps).early_start
          (mkTask "q" "Task Q" 1 none ["p"]).id = some esb →
      efa ≤ esb) :=
  c2_amended_precedence
    ⟨[mkTask "p" "Task P" 2 none [], mkTask "q" "Task Q" 1 none ["p"]],
      [("q", "2026-02-01T00:00:00")]⟩
    _ (by decide) (by decide)
    (mkTask "p" "Task P" 2 none []) (by decide)
    (mkTask "q" "Task Q" 1 none ["p"]) (by decide) (by decide)


/-- C3 amended — Duration closure on inputs with distinct task ids: each
task's backward entry spans exactly its duration (minutes field if present,
else days), and whenever the forward pass computed its early dates they
span exactly the same duration. -/
theorem c3_amended_duration_closure :
    ∀ (req : ScheduleRequest) (out : List ScheduledTask),
      (req.tasks.map Task.id).Nodup →
      calculate_backwards_schedule req = .ok out →
      ∀ T ∈ req.tasks,
      (∃ p : DT × DT, ∃ fin : BState, backResult req = .ok fin ∧
        schedLookup fin.sched T.id = some p ∧
        p.2 - p.1 = durationSecs T ∧
        ∃ r ∈ out, r.id = T.id ∧ r.start_date = formatDT p.1 ∧
          r.end_date = formatDT p.2) ∧
      (∀ (fin : BState) (ps : DT), backResult req = .ok fin →
        projectStart fin.sched = some ps →
        ∀ es ef, (runForward req.tasks ps).early_start T.id = some es →
        (runForward req.tasks ps).early_finish T.id = some ef →
        ef - es = durationSecs T) := by
  intro req out hnd h T hT0
  have hT : req.tasks ≠ [] := fun hnil => by rw [hnil] at hT0; cases hT0
  rcases calculate_ok_parts hT h with
    ⟨lf0, fin, ps, hseed, hloop, inv, hchk, hps, hout⟩
  have hbr : backResult req = .ok fin := calculate_ok_backResult hseed hloop
  have htmT : taskMap req.tasks T.id = some T := taskMap_nodup hnd hT0
  constructor
  · rcases sched_covered inv hchk T hT0 with ⟨p, hp⟩
    rcases inv.sched_tm (T.id, p) (schedLookup_mem hp) with ⟨t', ht', hdur⟩
    rw [htmT] at ht'
    injection ht' with ht'
    subst ht'
    rcases @assemble_row_mem req.tasks fin.sched (runForward req.tasks ps) T
      hT0 p hp with ⟨r, hr, hid, _, hsd, hed⟩
    exact ⟨p, fin, hbr, hp, hdur, r, by rw [hout]; exact hr, hid, hsd, hed⟩
  · intro fin2 ps2 hbr2 hps2 es ef hes hef
    rw [hbr] at hbr2
    injection hbr2 with hbr2
    subst hbr2
    have hcov : ∀ y t, taskMap req.tasks y = some t →
        ∃ q, schedLookup fin.sched y = some q := by
      intro y t hy
      rcases taskMap_mem hy with ⟨htmem, hid⟩
      rcases sched_covered inv hchk t htmem with ⟨q, hq⟩
      rw [hid] at hq
      exact ⟨q, hq⟩
    have hps2' : projectStart fin.sched = some ps2 := hps2
    have fl : FLite req.tasks fin.sched (runForward req.tasks ps2) := by
      rw [runForward]
      exact forwardLoop_flite inv hcov hps2' _ _ (FLite_init _ _)
    rcases fl.ef_pair T.id ef hef with ⟨t', es', ht', hes', hef'⟩
    rw [htmT] at ht'
    injection ht' with ht'
    subst ht'
    rw [hes] at hes'
    injection hes' with hes'
    rw [hef', ← hes']
    ring

theorem c3_witness :
    (∃ p : DT × DT, ∃ fin : BState,
      backResult ⟨[mkTask "m" "Task M" 0 (some 90) []],
        [("m", "2026-03-01T12:00:00")]⟩ = .ok fin ∧
      schedLookup fin.sched (mkTask "m" "Task M" 0 (some 90) []).id = some p ∧
      p.2 - p.1 = durationSecs (mkTask "m" "Task M" 0 (some 90) []) ∧
      ∃ r ∈ [({ id := "m", name := "Task M", start_date := "2026-03-01T10:30:00"
                end_date := "2026-03-01T12:00:00", completed := false
                notes := none, is_critical := true, slack_minutes := 0
                is_milestone := false } : ScheduledTask)],
        r.id = (mkTask "m" "Task M" 0 (some 90) []).id ∧
        r.start_date = formatDT p.1 ∧ r.end_date = formatDT p.2) ∧
    (∀ (fin : BState) (ps : DT),
      backResult ⟨[mkTask "m" "Task M" 0 (some 90) []],
        [("m", "2026-03-01T12:00:00")]⟩ = .ok fin →
      projectStart fin.sched = some ps →
      ∀ es ef, (runForward [mkTask "m" "Task M" 0 (some 90) []] ps).early_start
        (mkTask "m" "Task M" 0 (some 90) []).id = some es →
      (runForward [mkTask "m" "Task M" 0 (some 90) []] ps).early_finish
        (mkTask "m" "Task M" 0 (some 90) []).id = some ef →
      ef - es = durationSecs (mkTask "m" "Task M" 0 (some 90) [])) :=
  c3_amended_duration_closure
    ⟨[mkTask "m" "Task M" 0 (some 90) []], [("m", "2026-03-01T12:00:00")]⟩
    _ (by decide) (by decide) (mkTask "m" "Task M" 0 (some 90) []) (by decide)

/-- C6 amended — cycles are always rejected, but never via `CycleDetected`:
every request whose tasks contain a dependency cycle (a nonempty id list
where each task, looked up through the last-wins task map, has the next id
— cyclically — among its dependencies) fails, on every anchors map;
`CycleDetected` itself is returned on no input whatsoever (the variant is
dead code); the two-task cycle A↔B with a valid anchor is rejected with the
aggregate `NoEndDateComputed` naming Task A and Task B, while the same
cycle with an unparseable anchor fails earlier with `InvalidAnchorDate`. -/
theorem c6_amended_cycles_rejected :
    (∀ (req : ScheduleRequest) (out : List ScheduledTask)
      (l : List String), l ≠ [] →
      (∀ i j : Fin l.length, (i.val + 1) % l.length = j.val →
        ∃ t, taskMap req.tasks (l.get i) = some t ∧
          l.get j ∈ t.dependencies) →
      calculate_backwards_schedule req ≠ .ok out) ∧
    (∀ req : ScheduleRequest,
      calculate_backwards_schedule req ≠ .error .CycleDetected) ∧
    calculate_backwards_schedule
        { tasks := [mkTask "a" "Task A" 1 none ["b"],
                    mkTask "b" "Task B" 1 none ["a"]]
          anchors := [("a", "2026-01-15")] } =
      .error (.NoEndDateComputed
        "Tasks not processing from anchors (disconnected?): [\"Task A\", \"Task B\"]") ∧
    calculate_backwards_schedule
        { tasks := [mkTask "a" "Task A" 1 none ["b"],
                    mkTask "b" "Task B" 1 none ["a"]]
          anchors := [("a", "not a date")] } =
      .error (.InvalidAnchorDate "a"
        "Could not parse date 'not a date', expected %Y-%m-%dT%H:%M:%S or %Y-%m-%d") := by
  refine ⟨?_, calculate_ne_cycleDetected, by decide, by decide⟩
  intro req out l hlne hcyc h
  have h0 : 0 < l.length := List.length_pos.mpr hlne
  rcases hcyc ⟨0, h0⟩ ⟨1 % l.length, Nat.mod_lt _ h0⟩ rfl with ⟨t0, ht0, _⟩
  have hT : req.tasks ≠ [] := by
    intro hnil
    rcases taskMap_mem ht0 with ⟨hmem, _⟩
    rw [hnil] at hmem
    cases hmem
  rcases calculate_ok_parts hT h with
    ⟨lf0, fin, ps, hseed, hloop, inv, hchk, hps, hout⟩
  have hcov : ∀ i : Fin l.length,
      ∃ p, schedLookup fin.sched (l.get i) = some p := by
    intro i
    rcases hcyc i ⟨(i.val + 1) % l.length, Nat.mod_lt _ h0⟩ rfl
      with ⟨t, htm, _⟩
    rcases taskMap_mem htm with ⟨hmem, hid⟩
    rcases sched_covered inv hchk t hmem with ⟨p, hp⟩
    rw [hid] at hp
    exact ⟨p, hp⟩
  -- every schedule entry of a cycle member has a strictly deeper entry for
  -- its successor, so no entry can exist at all: descent on the tail length
  have main : ∀ m, ∀ i : Fin l.length, ∀ pre e post,
      fin.sched = pre ++ e :: post → e.1 = l.get i →
      post.length ≤ m → False := by
    intro m
    induction m with
    | zero =>
      intro i pre e post hdec hkey hlen
      rcases hcyc i ⟨(i.val + 1) % l.length, Nat.mod_lt _ h0⟩ rfl
        with ⟨t, htm, hdep⟩
      rcases hcov ⟨(i.val + 1) % l.length, Nat.mod_lt _ h0⟩ with ⟨pj, hpj⟩
      have hmem := schedLookup_mem hpj
      rw [hdec] at hmem
      have hord := inv.sched_order pre e post hdec t
        (by rw [hkey]; exact htm) _ hdep
      rcases List.mem_append.mp hmem with hpre | hcons
      · exact hord _ (List.mem_append_left _ hpre) rfl
      · rcases List.mem_cons.mp hcons with heq | hpost
        · exact hord e (List.mem_append_right _
            (List.mem_singleton_self _)) (by rw [← heq])
        · rw [List.eq_nil_of_length_eq_zero (Nat.le_zero.mp hlen)] at hpost
          cases hpost
    | succ m ih =>
      intro i pre e post hdec hkey hlen
      rcases hcyc i ⟨(i.val + 1) % l.length, Nat.mod_lt _ h0⟩ rfl
        with ⟨t, htm, hdep⟩
      rcases hcov ⟨(i.val + 1) % l.length, Nat.mod_lt _ h0⟩ with ⟨pj, hpj⟩
      have hmem := schedLookup_mem hpj
      rw [hdec] at hmem
      have hord := inv.sched_order pre e post hdec t
        (by rw [hkey]; exact htm) _ hdep
      rcases List.mem_append.mp hmem with hpre | hcons
      · exact hord _ (List.mem_append_left _ hpre) rfl
      · rcases List.mem_cons.mp hcons with heq | hpost
        · exact hord e (List.mem_append_right _
            (List.mem_singleton_self _)) (by rw [← heq])
        · rcases List.append_of_mem hpost with ⟨q, post2, rfl⟩
          refine ih ⟨(i.val + 1) % l.length, Nat.mod_lt _ h0⟩
            (pre ++ e :: q)
            (l.get ⟨(i.val + 1) % l.length, Nat.mod_lt _ h0⟩, pj)
            post2 ?_ rfl ?_
          · rw [hdec]
            simp
          · simp only [List.length_append, List.length_cons] at hlen
            omega
  rcases hcov ⟨0, h0⟩ with ⟨p0, hp0⟩
  rcases List.append_of_mem (schedLookup_mem hp0) with ⟨pre, post, hdec⟩
  exact main post.length ⟨0, h0⟩ pre _ post hdec rfl (le_refl _)

theorem c6_witness :
    calculate_backwards_schedule
        { tasks := [mkTask "a" "Task A" 1 none ["b"],
                    mkTask "b" "Task B" 1 none ["a"]]
          anchors := [("a", "2026-01-15")] } ≠
      .ok [] :=
  c6_amended_cycles_rejected.1
    { tasks := [mkTask "a" "Task A" 1 none ["b"],
                mkTask "b" "Task B" 1 none ["a"]]
      anchors := [("a", "2026-01-15")] }
    [] ["a", "b"] (by decide)
    (by
      intro i j hij
      fin_cases i <;> fin_cases j <;>
        first
          | exact absurd hij (by decide)
          | exact ⟨mkTask "a" "Task A" 1 none ["b"], by decide, by decide⟩
          | exact ⟨mkTask "b" "Task B" 1 none ["a"], by decide, by decide⟩)

end AnchorSched
